import Mathlib

/-!
A shallow embedding of the water-sort solver core (`src/tube.rs`,
`src/game.rs`, `src/solver.rs`, `src/main.rs`) in Lean 4, together with
theorems settling the specification claims.

Modelling conventions:
* Rust `usize` values are modelled as `Nat`. The `usize` subtractions
  that can underflow in `Tube::pour_to` and in the flush test of
  `Solver::get_possible_moves` are modelled with release-mode wrapping
  arithmetic (`wrapUSub`), and the `as i32` casts in
  `Tube::is_valid_move_to` are modelled by bit-faithful truncation
  (`wrapI32`).
* Operations that abort the process return `Option`, with `none` marking
  abnormal termination: out-of-bounds `Vec` indexing (a panic in every
  build profile), and the `usize` underflows in `Solver::new`'s bucket
  count (a panic in debug builds, an absurd `2^64`-scale allocation loop
  in release builds).
* Rust `String` colour labels are Lean `String`s; `char::to_lowercase`
  and `char::is_whitespace` are modelled on the ASCII fragment actually
  exercised by the program (`lowerC`, `isWS`).
-/

/-- `TUBE_SIZE` from `src/main.rs`. -/
def TUBE_SIZE : Nat := 4

/-- Two's-complement truncation to 32 bits, as an integer: models Rust's
`as i32` cast on the mathematical value of the operand. -/
def wrapI32 (x : Int) : Int :=
  (x + 2 ^ 31) % 2 ^ 32 - 2 ^ 31

/-- Wrapping `usize` subtraction (release-mode semantics of `a - b`). -/
def wrapUSub (a b : Nat) : Nat :=
  (a % 2 ^ 64 + (2 ^ 64 - b % 2 ^ 64)) % 2 ^ 64

/-- ASCII model of Rust `char::is_whitespace` (the program only feeds it
ASCII text). -/
def isWS (c : Char) : Bool :=
  c = ' ' || c = '\t' || c = '\n' || c = '\r'

/-- The upper-to-lower table of the Latin alphabet. -/
def upperLower : List (Char × Char) :=
  [('A', 'a'), ('B', 'b'), ('C', 'c'), ('D', 'd'), ('E', 'e'), ('F', 'f'),
   ('G', 'g'), ('H', 'h'), ('I', 'i'), ('J', 'j'), ('K', 'k'), ('L', 'l'),
   ('M', 'm'), ('N', 'n'), ('O', 'o'), ('P', 'p'), ('Q', 'q'), ('R', 'r'),
   ('S', 's'), ('T', 't'), ('U', 'u'), ('V', 'v'), ('W', 'w'), ('X', 'x'),
   ('Y', 'y'), ('Z', 'z')]

/-- ASCII model of Rust `char::to_lowercase` (single-character mapping on
the Latin alphabet; all other characters are fixed). -/
def lowerC (c : Char) : Char :=
  ((upperLower.find? fun p => p.1 = c).map fun p => p.2).getD c

/-- `str::trim` on the character list of a string. -/
def trimChars (l : List Char) : List Char :=
  ((l.dropWhile isWS).reverse.dropWhile isWS).reverse

/-- `str::to_lowercase` on the character list of a string. -/
def lowerChars (l : List Char) : List Char :=
  l.map lowerC

/-- `x.trim().to_lowercase()` as performed on every token in
`Tube::from_string` and `Tube::from_string_vec`. -/
def normToken (l : List Char) : List Char :=
  lowerChars (trimChars l)

/-- Rust `string.split(',')`: splits at every comma; the empty string
yields one empty token. -/
def splitComma : List Char → List (List Char)
  | [] => [[]]
  | c :: rest =>
    if c = ',' then [] :: splitComma rest
    else
      match splitComma rest with
      | [] => [[c]]
      | t :: ts => (c :: t) :: ts

/-- `Move` from `src/game.rs`. -/
structure Move where
  tube_from : Nat
  tube_to : Nat
  colour : String
  quantity : Nat
deriving DecidableEq, Repr

/-- `ColourPos` from `src/tube.rs`. -/
structure ColourPos where
  colour : String
  pos : Nat
  block_size : Nat
deriving DecidableEq, Repr

/-- `Tube` from `src/tube.rs`: `contents` index 0 is the mouth. -/
structure Tube where
  contents : List (Option String)
  tube_number : Nat
deriving DecidableEq, Repr

/-- The run of cells equal to `colour` at the front of a cell list; embeds
the loop of `Tube::get_block_size` (stops at a mismatch or an empty cell). -/
def countRun (colour : String) : List (Option String) → Nat
  | [] => 0
  | none :: _ => 0
  | some c :: rest => if c = colour then 1 + countRun colour rest else 0

/-- `Tube::get_block_size`. -/
def Tube.get_block_size (t : Tube) (start : Nat) (colour : String) : Nat :=
  countRun colour (t.contents.drop start)

/-- The scan of `Tube::get_top_colour`: first non-empty cell with its
index (the accumulator starts at the index of the list head). -/
def topAux : List (Option String) → Nat → Option (Nat × String)
  | [], _ => none
  | none :: rest, i => topAux rest (i + 1)
  | some c :: _, i => some (i, c)

/-- `Tube::get_top_colour`. -/
def Tube.get_top_colour (t : Tube) : Option ColourPos :=
  match topAux t.contents 0 with
  | none => none
  | some (i, c) => some ⟨c, i, t.get_block_size i c⟩

/-- The cell-checking loop of `Tube::is_valid_move_from` over indices
`[start, start+q)`; `none` models the out-of-bounds indexing panic. -/
def cellsAllColour (contents : List (Option String)) (colour : String) :
    Nat → Nat → Option Bool
  | _, 0 => some true
  | start, q + 1 =>
    match contents.get? start with
    | none => none
    | some none => some false
    | some (some c) =>
      if c = colour then cellsAllColour contents colour (start + 1) q
      else some false

/-- `Tube::is_valid_move_from`; `none` models a panic. -/
def Tube.is_valid_move_from (t : Tube) (m : Move) : Option Bool :=
  if t.tube_number ≠ m.tube_from then some false
  else
    let start :=
      match t.get_top_colour with
      | some cp => cp.pos
      | none => 0
    if start + m.quantity > TUBE_SIZE then some false
    else cellsAllColour t.contents m.colour start m.quantity

/-- `Tube::is_valid_move_to` (total: it performs no indexing). -/
def Tube.is_valid_move_to (t : Tube) (m : Move) : Bool :=
  if t.tube_number ≠ m.tube_to then false
  else
    let tc :=
      match t.get_top_colour with
      | some cp => (cp.colour, cp.pos)
      | none => (m.colour, TUBE_SIZE)
    if wrapI32 ((wrapI32 tc.2) - wrapI32 m.quantity) < 0 then false
    else if tc.1 ≠ m.colour then false
    else true

/-- The mutation loop of `Tube::pour_from`: clears matching cells from the
mouth, skipping empty cells, until `qty` runs out or a mismatch breaks. -/
def pourFromCells (col : String) (cells : List (Option String)) (qty : Nat) :
    List (Option String) :=
  match qty, cells with
  | 0, cs => cs
  | _ + 1, [] => []
  | q + 1, none :: cs => none :: pourFromCells col cs (q + 1)
  | q + 1, some c :: cs =>
    if c = col then none :: pourFromCells col cs q
    else some c :: cs

/-- `Tube::pour_from` (total: it never indexes out of bounds). -/
def Tube.pour_from (t : Tube) (m : Move) : Tube :=
  { t with contents := pourFromCells m.colour t.contents m.quantity }

/-- The write loop of `Tube::pour_to`, setting `n` cells starting at
`start`; `none` models the out-of-bounds indexing panic. -/
def writeCells (col : String) : List (Option String) → Nat → Nat →
    Option (List (Option String))
  | cs, _, 0 => some cs
  | cs, start, n + 1 =>
    if start < cs.length then
      writeCells col (cs.set start (some col)) (start + 1) n
    else none

/-- `Tube::pour_to`; the start index uses wrapping `usize` subtraction and
`none` models an indexing panic. -/
def Tube.pour_to (t : Tube) (m : Move) : Option Tube :=
  let se :=
    match t.get_top_colour with
    | some cp => (wrapUSub cp.pos m.quantity, cp.pos)
    | none => (wrapUSub TUBE_SIZE m.quantity, TUBE_SIZE)
  match writeCells m.colour t.contents se.1 (se.2 - se.1) with
  | some cs => some { t with contents := cs }
  | none => none

/-- The cell a (normalized) token parses to: the literal `"empty"` and
the blank token give an empty cell, anything else is a colour. -/
def cellOfToken (tk : List Char) : Option String :=
  if (⟨tk⟩ : String) = "empty" ∨ (⟨tk⟩ : String) = "" then none
  else some ⟨tk⟩

/-- `Tube::from_string`: split on commas, trim and lower-case each token,
left-pad with empty cells up to `TUBE_SIZE`, map `"empty"` and blank
tokens to empty cells. -/
def Tube.from_string (string_colours : String) (tube_number : Nat) : Tube :=
  let toks := (splitComma string_colours.data).map normToken
  ⟨List.replicate (TUBE_SIZE - toks.length) none ++ toks.map cellOfToken,
    tube_number⟩

/-- The shape of colour cells produced by `Tube::from_string`:
normalization-fixed, comma-free, and not a token that parses to empty. -/
def NiceCell : Option String → Prop
  | none => True
  | some col => normToken col.data = col.data ∧ (',' ∉ col.data) ∧
      col ≠ "empty" ∧ col ≠ ""

/-- One cell of the `Display` implementation for `Tube`: a colour prints
as itself, an empty cell as `"empty"`. -/
def cellText : Option String → String
  | some c => c
  | none => "empty"

/-- Rust `Vec::join(", ")`. -/
def joinCS : List String → String
  | [] => ""
  | [x] => x
  | x :: y :: xs => x ++ ", " ++ joinCS (y :: xs)

/-- The comma-separated cell list rendered by `Display for Tube` (the part
between the parentheses). -/
def renderCells (t : Tube) : String :=
  joinCS (t.contents.map cellText)

/-- `Display for Tube`: `"<n+1>: (<cells>)"`. -/
def Tube.display (t : Tube) : String :=
  toString (t.tube_number + 1) ++ ": (" ++ renderCells t ++ ")"

/-- `Game` from `src/game.rs`. The `HashMap<usize, Move>` move log is
modelled as an association list with unique keys; the `HashSet<String>`
colour set as a list of colours. -/
structure Game where
  tubes : List Tube
  moves : List (Nat × Move)
  current_move : Nat
  colours : List String
deriving DecidableEq, Repr

/-- `HashMap::insert`: replaces the value at an existing key, otherwise
adds the binding. -/
def insertMove (l : List (Nat × Move)) (k : Nat) (m : Move) : List (Nat × Move) :=
  if l.any fun p => p.1 = k then
    l.map fun p => if p.1 = k then (k, m) else p
  else (k, m) :: l

/-- `HashMap::get` on the move log. -/
def findMove (l : List (Nat × Move)) (k : Nat) : Option Move :=
  (l.find? fun p => p.1 = k).map fun p => p.2

/-- `Game::init_tubes`; `none` models the `panic!` for fewer than 4
tubes. Note the source replaces only `self.tubes`. -/
def Game.init_tubes (g : Game) (num_of_tubes : Nat) : Option Game :=
  if num_of_tubes < 4 then none
  else some { g with
    tubes := (List.range num_of_tubes).map fun idx => Tube.from_string "" idx }

/-- `Game::validate_move`; `none` models the panic of `self.tubes[i]`
indexing with an out-of-range tube index (both tubes are looked up before
either check runs), or a panic inside the source-side check. -/
def Game.validate_move (g : Game) (m : Move) : Option Bool :=
  match g.tubes.get? m.tube_from, g.tubes.get? m.tube_to with
  | some ft, some tt =>
    match ft.is_valid_move_from m with
    | none => none
    | some false => some false
    | some true => some (tt.is_valid_move_to m)
  | _, _ => none

/-- `Game::make_move`: validate, then pour from the source, pour into the
destination (of the already-updated tube vector), increment the counter
and record the move at the new counter value; `none` models a panic. -/
def Game.make_move (g : Game) (m : Move) : Option Game :=
  match g.validate_move m with
  | none => none
  | some false => some g
  | some true =>
    let tubes1 :=
      match g.tubes.get? m.tube_from with
      | some ft => g.tubes.set m.tube_from (ft.pour_from m)
      | none => g.tubes
    match tubes1.get? m.tube_to with
    | none => none
    | some tt =>
      match tt.pour_to m with
      | none => none
      | some tt2 => some { g with
          tubes := tubes1.set m.tube_to tt2,
          current_move := g.current_move + 1,
          moves := insertMove g.moves (g.current_move + 1) m }

/-- The per-tube scan of `Game::get_number_of_blocks`, carrying the
in-progress colour; the final `if current_colour.is_some()` increment is
the base case. -/
def blocksInTube : Option String → List (Option String) → Nat
  | some _, [] => 1
  | none, [] => 0
  | cur, some col :: rest =>
    match cur with
    | none => blocksInTube (some col) rest
    | some cc => if col = cc then blocksInTube (some cc) rest
                 else 1 + blocksInTube (some col) rest
  | cur, none :: rest =>
    match cur with
    | none => blocksInTube none rest
    | some _ => 1 + blocksInTube none rest

/-- `Game::get_number_of_blocks`: sum of the per-tube block scans. -/
def Game.get_number_of_blocks (g : Game) : Nat :=
  (g.tubes.map fun t => blocksInTube none t.contents).sum

/-- `Solver` from `src/solver.rs`. -/
structure Solver where
  states : List (List Game)
  current_state : Game
  current_block_count : Nat
deriving DecidableEq, Repr

/-- `Solver::new`; `none` models the aborts of
`current_state.tubes.len() - 2` (underflow for fewer than 2 tubes) and of
`number_of_blocks - (tubes.len() - 2)` (underflow when the block count is
below `tubes.len() - 2`): both panic in debug builds and attempt an
absurd `2^64`-scale loop in release builds. -/
def Solver.new (current_state : Game) : Option Solver :=
  let number_of_blocks := current_state.get_number_of_blocks
  if number_of_blocks + 2 = current_state.tubes.length then
    some ⟨[], current_state, number_of_blocks⟩
  else if current_state.tubes.length < 2 then none
  else if number_of_blocks < current_state.tubes.length - 2 then none
  else
    match List.replicate (number_of_blocks - (current_state.tubes.length - 2))
        ([] : List Game) with
    | [] => none
    | b :: rest => some ⟨(b ++ [current_state]) :: rest, current_state, number_of_blocks⟩

/-- `iter().enumerate()` starting at index `i`. -/
def enumF : Nat → List Tube → List (Nat × Tube)
  | _, [] => []
  | i, t :: ts => (i, t) :: enumF (i + 1) ts

/-- The inner (destination) loop of `Solver::get_possible_moves` for a
source `from_idx` whose top segment is `fc`. -/
def innerLoop (from_idx : Nat) (fc : ColourPos) : List (Nat × Tube) → List Move
  | [] => []
  | (to_idx, tt) :: rest =>
    if from_idx = to_idx then innerLoop from_idx fc rest
    else
      match tt.get_top_colour with
      | none =>
        if wrapUSub TUBE_SIZE fc.block_size = fc.pos then innerLoop from_idx fc rest
        else ⟨from_idx, to_idx, fc.colour, fc.block_size⟩ :: innerLoop from_idx fc rest
      | some tc =>
        if tc.colour = fc.colour then
          ⟨from_idx, to_idx, fc.colour, min fc.block_size tc.pos⟩ ::
            innerLoop from_idx fc rest
        else innerLoop from_idx fc rest

/-- The outer (source) loop of `Solver::get_possible_moves`: note the
source `break`s out of the whole enumeration at the first tube with no
top segment. -/
def outerLoop (all : List (Nat × Tube)) : List (Nat × Tube) → List Move
  | [] => []
  | (from_idx, ft) :: rest =>
    match ft.get_top_colour with
    | none => []
    | some fc => innerLoop from_idx fc all ++ outerLoop all rest

/-- `Solver::get_possible_moves` (it reads only `self.current_state`, so
it is embedded as a function of that game). -/
def Solver.get_possible_moves (current_state : Game) : List Move :=
  outerLoop (enumF 0 current_state.tubes) (enumF 0 current_state.tubes)

/-- A game built like the tests do: `init_tubes` with `num` tubes, then
the given contents strings in order (remaining tubes stay empty). -/
def mkGame (ts : List String) (num : Nat) : Game :=
  ⟨(List.range num).map fun i => Tube.from_string (ts.getD i "") i, [], 0, []⟩

/-- Every tube of the game has the standard `TUBE_SIZE` cells (the data
model's fixed-length invariant, §3 of the spec). -/
def allStdLen (g : Game) : Bool :=
  g.tubes.all fun t => t.contents.length = TUBE_SIZE

/-- All recorded move numbers are at most the current move counter (true
of every game reached from a fresh game by `make_move`). -/
def movesFresh (g : Game) : Bool :=
  g.moves.all fun p => p.1 ≤ g.current_move

/-- The fill range computed by `Tube::pour_to` stays inside
`0..TUBE_SIZE`: `[pos − quantity, pos)` below a top segment, or
`[TUBE_SIZE − quantity, TUBE_SIZE)` in an empty tube. -/
def pourToRangeSafe (t : Tube) (m : Move) : Bool :=
  match t.get_top_colour with
  | some cp => m.quantity ≤ cp.pos && cp.pos ≤ TUBE_SIZE
  | none => m.quantity ≤ TUBE_SIZE

/-- Number of cells of a given colour in a cell list. -/
def countColour (col : String) (l : List (Option String)) : Nat :=
  l.count (some col)

/-- Number of colour-holding (non-empty) cells in a cell list. -/
def countFilled (l : List (Option String)) : Nat :=
  (l.filter Option.isSome).length

/-- `countColour` of a tube. -/
def tubeColourCount (col : String) (t : Tube) : Nat :=
  countColour col t.contents

/-- `countFilled` of a tube. -/
def tubeFilledCount (t : Tube) : Nat :=
  countFilled t.contents

/-- Modelled from the spec: the destination rules of the per-pair move
enumeration (§4.3): an empty destination takes the whole top segment
unless the segment already sits flush against the bottom; a destination
with a matching top colour takes `min(source block size, headroom)`;
other destinations yield no move. -/
def specInner (from_idx : Nat) (fc : ColourPos) (e : List (Nat × Tube)) :
    List Move :=
  e.flatMap fun q =>
    if from_idx = q.1 then []
    else
      match q.2.get_top_colour with
      | none =>
        if fc.pos + fc.block_size = TUBE_SIZE then []
        else [⟨from_idx, q.1, fc.colour, fc.block_size⟩]
      | some tc =>
        if tc.colour = fc.colour then
          [⟨from_idx, q.1, fc.colour, min fc.block_size tc.pos⟩]
        else []

/-- Modelled from the spec as amended: the enumeration visits sources in
index order but halts at the first tube with no top segment; each visited
source is paired with every other tube under `specInner`'s rules. -/
def specMoves (g : Game) : List Move :=
  ((enumF 0 g.tubes).takeWhile fun p => p.2.get_top_colour.isSome).flatMap
    fun p =>
      match p.2.get_top_colour with
      | none => []
      | some fc => specInner p.1 fc (enumF 0 g.tubes)

/-- Modelled from claim C3's words: the enumeration proposes a move for
every ordered pair of distinct tubes meeting the conditions; a source
with no top segment merely yields no move (no halting). -/
def claimedMoves (g : Game) : List Move :=
  (enumF 0 g.tubes).flatMap fun p =>
    match p.2.get_top_colour with
    | none => []
    | some fc => specInner p.1 fc (enumF 0 g.tubes)

/-- Concrete game for claim C3: an exhausted (empty) tube sits at index 0
while tubes 1 and 2 both have a red top. -/
def gC3 : Game := mkGame ["", "red,red,red", "red"] 4

/-- Concrete game for claim C3's amended theorem witness. -/
def gW3 : Game := mkGame ["red, red, red", "blue, blue, blue, blue", "red"] 4

/-- Concrete game for claim C5: four empty tubes, the state produced by
`init_tubes(4)` before any contents are set. -/
def gC5 : Game := mkGame [] 4

/-- Concrete game for claim C5's amended theorem witness. -/
def gW5 : Game := mkGame ["blue, red, blue, red", "red, red", "blue, blue"] 4

/-- Concrete game for claim C6: a game whose move log, counter and colour
set are all non-empty. -/
def gC6 : Game :=
  ⟨[Tube.from_string "red,red,red,red" 0], [(1, ⟨0, 1, "red", 1⟩)], 1, ["red"]⟩

/-- Concrete game for claim C6's amended theorem witness. -/
def gW6 : Game :=
  ⟨[Tube.from_string "blue" 0], [(1, ⟨2, 3, "blue", 2⟩)], 1, ["blue"]⟩

/-- Concrete games for claims C1, C2, C7, C8 and C10. -/
def gW1 : Game := mkGame ["red, red", "", "blue, blue, blue, blue"] 4

/-- Concrete game for claim C2's witness. -/
def gW2 : Game := mkGame ["blue, red, blue, red", "red, red", "blue, blue"] 4

/-- The source tube of claim C1's witness move. -/
def tW1a : Tube := Tube.from_string "red, red" 0

/-- The (empty) destination tube of claim C1's witness move. -/
def tW1b : Tube := Tube.from_string "" 1

/-- The source tube of claim C8's witness pour. -/
def tW8a : Tube := Tube.from_string "red, red" 0

/-- The (empty) destination tube of claim C8's witness pour. -/
def tW8b : Tube := Tube.from_string "" 1

/-- The destination tube, at the moment `pour_to` runs, of claim C10's
witness move. -/
def tW10 : Tube := Tube.from_string "blue, blue" 2

/-- Concrete single-tube games for claim C7. -/
def gC7a : Game := ⟨[Tube.from_string "red,red,red,red" 0], [], 0, []⟩

/-- Second concrete game for claim C7. -/
def gC7b : Game := ⟨[Tube.from_string "red,blue,red,blue" 0], [], 0, []⟩

/-- Third concrete game for claim C7. -/
def gC7c : Game := ⟨[Tube.from_string "" 0], [], 0, []⟩

/-- Concrete game for claim C10's witness. -/
def gW10 : Game := mkGame ["blue, red, blue, red", "red, red", "blue, blue"] 4

/-- Concrete tube for claim C9's counterexample. -/
def tC9 : Tube := Tube.from_string "red" 0

/-- Number of opening parentheses in a string; case and whitespace
normalization cannot change it. -/
def parenCount (s : String) : Nat :=
  (s.data.filter fun c => c = '(').length

/-! ### Arithmetic lemmas -/

theorem wrapI32_of_bounds (x : Int) (h0 : -2 ^ 31 ≤ x) (h1 : x < 2 ^ 31) :
    wrapI32 x = x := by
  unfold wrapI32
  have : (x + 2 ^ 31) % 2 ^ 32 = x + 2 ^ 31 := Int.emod_eq_of_lt (by omega) (by omega)
  omega

theorem wrapI32_natCast_le (n : Nat) : wrapI32 n ≤ n := by
  unfold wrapI32
  have h1 : ((n : Int) + 2 ^ 31) % 2 ^ 32 = ((n + 2 ^ 31 : Nat) % (2 ^ 32 : Nat) : Nat) := by
    push_cast
    ring_nf
  have h2 : (n + 2 ^ 31) % 2 ^ 32 ≤ n + 2 ^ 31 := Nat.mod_le _ _
  omega

theorem wrapUSub_of_le (a b : Nat) (ha : a < 2 ^ 64) (hba : b ≤ a) :
    wrapUSub a b = a - b := by
  unfold wrapUSub
  have hb : b < 2 ^ 64 := lt_of_le_of_lt hba ha
  rw [Nat.mod_eq_of_lt ha, Nat.mod_eq_of_lt hb]
  have h1 : a + (2 ^ 64 - b) = (a - b) + 2 ^ 64 := by omega
  rw [h1, Nat.add_mod_right, Nat.mod_eq_of_lt (by omega)]

/-! ### Lemmas on the top-colour scan -/

theorem topAux_replicate_none (p : Nat) (rest : List (Option String)) (i : Nat) :
    topAux (List.replicate p none ++ rest) i = topAux rest (i + p) := by
  induction p generalizing i with
  | zero => simp [topAux]
  | succ q ih =>
    simp only [List.replicate_succ, List.cons_append, List.append_eq, topAux]
    rw [ih]
    congr 1
    omega

theorem topAux_none_iff (l : List (Option String)) (i : Nat) :
    topAux l i = none ↔ ∀ c ∈ l, c = none := by
  induction l generalizing i with
  | nil => simp [topAux]
  | cons a l ih =>
    cases a with
    | none => simpa [topAux] using ih (i + 1)
    | some c => simp [topAux]

theorem topAux_some (l : List (Option String)) (i j : Nat) (c : String)
    (h : topAux l i = some (j, c)) :
    i ≤ j ∧ l.take (j - i) = List.replicate (j - i) none ∧
      l.get? (j - i) = some (some c) := by
  induction l generalizing i with
  | nil => simp [topAux] at h
  | cons a l ih =>
    cases a with
    | some c' =>
      simp only [topAux, Option.some.injEq, Prod.mk.injEq] at h
      obtain ⟨hj, hc⟩ := h
      subst hj hc
      simp
    | none =>
      simp only [topAux] at h
      obtain ⟨hij, htake, hget⟩ := ih (i + 1) h
      refine ⟨by omega, ?_, ?_⟩
      · have hji : j - i = (j - (i + 1)) + 1 := by omega
        rw [hji]
        simpa [List.replicate_succ] using htake
      · have hji : j - i = (j - (i + 1)) + 1 := by omega
        rw [hji]
        simpa using hget

/-- A tube's top-colour scan, decomposed: the cells before the top
position are all empty, the top position holds the colour, and the block
size is the run length from there. -/
theorem get_top_colour_some (t : Tube) (cp : ColourPos)
    (h : t.get_top_colour = some cp) :
    t.contents.take cp.pos = List.replicate cp.pos none ∧
      t.contents.get? cp.pos = some (some cp.colour) ∧
      cp.block_size = countRun cp.colour (t.contents.drop cp.pos) := by
  unfold Tube.get_top_colour at h
  cases htop : topAux t.contents 0 with
  | none => rw [htop] at h; simp at h
  | some v =>
    obtain ⟨j, c⟩ := v
    rw [htop] at h
    simp only [Option.some.injEq] at h
    obtain ⟨-, ht, hg⟩ := topAux_some _ _ _ _ htop
    subst h
    simp only [Nat.sub_zero] at ht hg
    exact ⟨ht, hg, rfl⟩

theorem get_top_colour_none (t : Tube) (h : t.get_top_colour = none) :
    ∀ c ∈ t.contents, c = none := by
  unfold Tube.get_top_colour at h
  cases htop : topAux t.contents 0 with
  | none => exact (topAux_none_iff _ _).1 htop
  | some v => obtain ⟨j, c⟩ := v; rw [htop] at h; simp at h

theorem get_top_colour_pos_lt (t : Tube) (cp : ColourPos)
    (h : t.get_top_colour = some cp) : cp.pos < t.contents.length := by
  obtain ⟨-, hget, -⟩ := get_top_colour_some t cp h
  exact List.get?_eq_some.1 hget |>.1

/-- The block of the top segment never extends past the end of the tube. -/
theorem get_top_colour_block_le (t : Tube) (cp : ColourPos)
    (h : t.get_top_colour = some cp) :
    cp.pos + cp.block_size ≤ t.contents.length := by
  obtain ⟨-, -, hbs⟩ := get_top_colour_some t cp h
  have hlen : countRun cp.colour (t.contents.drop cp.pos) ≤
      (t.contents.drop cp.pos).length := by
    generalize t.contents.drop cp.pos = l
    induction l with
    | nil => simp [countRun]
    | cons a l ih =>
      cases a with
      | none => simp [countRun]
      | some c =>
        by_cases hc : c = cp.colour
        · simp only [countRun, if_pos hc, List.length_cons]
          omega
        · simp [countRun, hc]
  have := get_top_colour_pos_lt t cp h
  rw [hbs]
  have : (t.contents.drop cp.pos).length = t.contents.length - cp.pos := by
    simp
  omega

/-! ### Pointwise decompositions of cell lists -/

theorem drop_eq_replicate_append {α : Type} (l : List α) (a : α) :
    ∀ s q : Nat, (∀ j, j < q → l.get? (s + j) = some a) →
      l.drop s = List.replicate q a ++ l.drop (s + q) := by
  intro s q
  induction q generalizing s with
  | zero => simp
  | succ n ih =>
    intro h
    have h0 : l.get? s = some a := by simpa using h 0 (by omega)
    have hs : s < l.length := (List.get?_eq_some.1 h0).1
    have hget : l.get ⟨s, hs⟩ = a := (List.get?_eq_some.1 h0).2
    rw [List.drop_eq_getElem_cons hs]
    have h' : ∀ j, j < n → l.get? (s + 1 + j) = some a := by
      intro j hj
      have := h (j + 1) (by omega)
      simpa [Nat.add_assoc, Nat.add_comm 1 j] using this
    have hrw : s + (n + 1) = (s + 1) + n := by omega
    rw [hrw, List.replicate_succ, List.cons_append, ← ih (s + 1) h']
    exact congrArg (fun x => x :: List.drop (s + 1) l) hget

theorem contents_decomp_of_valid_from (l : List (Option String)) (col : String)
    (p q : Nat) (htake : l.take p = List.replicate p none)
    (hcells : ∀ j, j < q → l.get? (p + j) = some (some col)) :
    l = List.replicate p none ++ List.replicate q (some col) ++ l.drop (p + q) := by
  conv_lhs => rw [← List.take_append_drop p l]
  rw [htake, drop_eq_replicate_append l (some col) p q hcells, List.append_assoc]

/-! ### The source-side validity check -/

theorem cellsAllColour_succ (l : List (Option String)) (col : String)
    (s q : Nat) :
    cellsAllColour l col s (q + 1) =
      match l.get? s with
      | none => none
      | some none => some false
      | some (some c) =>
        if c = col then cellsAllColour l col (s + 1) q else some false := rfl

theorem cellsAllColour_get (l : List (Option String)) (col : String) :
    ∀ s q : Nat, cellsAllColour l col s q = some true →
      ∀ j, j < q → l.get? (s + j) = some (some col) := by
  intro s q
  induction q generalizing s with
  | zero => omega
  | succ n ih =>
    intro h j hj
    rw [cellsAllColour_succ] at h
    cases hg : l.get? s with
    | none => rw [hg] at h; exact absurd h (by simp)
    | some cell =>
      rw [hg] at h
      cases cell with
      | none => exact absurd h (by simp)
      | some c =>
        simp only at h
        by_cases hc : c = col
        · rw [if_pos hc] at h
          subst hc
          cases j with
          | zero => simpa using hg
          | succ i =>
            have := ih (s + 1) h i (by omega)
            simpa [Nat.add_assoc, Nat.add_comm 1 i] using this
        · rw [if_neg hc] at h
          exact absurd h (by simp)

/-- Decomposition of a successful `Tube::is_valid_move_from`: the tube is
correctly numbered, the quantity fits under `TUBE_SIZE`, and either the
tube is empty and the quantity zero, or the `quantity` cells from the top
position all hold the move's colour. -/
theorem is_valid_move_from_decomp (t : Tube) (m : Move)
    (h : t.is_valid_move_from m = some true) :
    t.tube_number = m.tube_from ∧ m.quantity ≤ TUBE_SIZE ∧
      ((t.get_top_colour = none ∧ m.quantity = 0) ∨
        (∃ cp, t.get_top_colour = some cp ∧ cp.pos + m.quantity ≤ TUBE_SIZE ∧
          ∀ j, j < m.quantity → t.contents.get? (cp.pos + j) = some (some m.colour))) := by
  unfold Tube.is_valid_move_from at h
  by_cases hn : t.tube_number ≠ m.tube_from
  · rw [if_pos hn] at h; exact absurd h (by simp)
  rw [if_neg hn] at h
  push_neg at hn
  cases htop : t.get_top_colour with
  | none =>
    rw [htop] at h
    simp only at h
    by_cases hq : 0 + m.quantity > TUBE_SIZE
    · rw [if_pos hq] at h; exact absurd h (by simp)
    rw [if_neg hq] at h
    refine ⟨hn, by omega, Or.inl ⟨rfl, ?_⟩⟩
    by_cases hq0 : m.quantity = 0
    · exact hq0
    · exfalso
      have hg := cellsAllColour_get t.contents m.colour 0 m.quantity h 0 (by omega)
      have hall := get_top_colour_none t htop
      have hmem : (some m.colour : Option String) ∈ t.contents := by
        have := List.get?_eq_some.1 (by simpa using hg)
        obtain ⟨hlt, hget⟩ := this
        rw [← hget]
        exact List.get_mem _ _ _
      exact absurd (hall _ hmem) (by simp)
  | some cp =>
    rw [htop] at h
    simp only at h
    by_cases hq : cp.pos + m.quantity > TUBE_SIZE
    · rw [if_pos hq] at h; exact absurd h (by simp)
    rw [if_neg hq] at h
    exact ⟨hn, by omega, Or.inr ⟨cp, rfl, by omega,
      cellsAllColour_get t.contents m.colour cp.pos m.quantity h⟩⟩

/-! ### The destination-side validity check -/

/-- Decomposition of a successful `Tube::is_valid_move_to`, given that the
quantity is small (guaranteed by the source-side check) and the tube has
the standard `TUBE_SIZE` cells. -/
theorem is_valid_move_to_decomp (t : Tube) (m : Move)
    (hq4 : m.quantity ≤ TUBE_SIZE) (hlen : t.contents.length = TUBE_SIZE)
    (h : t.is_valid_move_to m = true) :
    t.tube_number = m.tube_to ∧
      (t.get_top_colour = none ∨
        (∃ cp, t.get_top_colour = some cp ∧ cp.colour = m.colour ∧
          m.quantity ≤ cp.pos)) := by
  unfold Tube.is_valid_move_to at h
  by_cases hn : t.tube_number ≠ m.tube_to
  · rw [if_pos hn] at h; exact absurd h (by simp)
  rw [if_neg hn] at h
  push_neg at hn
  refine ⟨hn, ?_⟩
  cases htop : t.get_top_colour with
  | none => exact Or.inl rfl
  | some cp =>
    rw [htop] at h
    simp only at h
    have hpos : cp.pos < TUBE_SIZE := hlen ▸ get_top_colour_pos_lt t cp htop
    have hwp : wrapI32 cp.pos = cp.pos :=
      wrapI32_of_bounds _ (by omega) (by unfold TUBE_SIZE at hpos; omega)
    have hwq : wrapI32 m.quantity = m.quantity :=
      wrapI32_of_bounds _ (by omega) (by unfold TUBE_SIZE at hq4; omega)
    by_cases hneg : wrapI32 (wrapI32 cp.pos - wrapI32 m.quantity) < 0
    · rw [if_pos hneg] at h; exact absurd h (by simp)
    rw [if_neg hneg] at h
    by_cases hcol : cp.colour ≠ m.colour
    · rw [if_pos hcol] at h; exact absurd h (by simp)
    push_neg at hcol
    rw [hwp, hwq] at hneg
    have hd : wrapI32 ((cp.pos : Int) - m.quantity) = (cp.pos : Int) - m.quantity := by
      apply wrapI32_of_bounds
      · unfold TUBE_SIZE at hq4; omega
      · unfold TUBE_SIZE at hpos; omega
    rw [hd] at hneg
    exact Or.inr ⟨cp, rfl, hcol, by omega⟩

/-! ### The pour-from mutation -/

theorem pourFromCells_zero (col : String) (l : List (Option String)) :
    pourFromCells col l 0 = l := by
  cases l with
  | nil => rfl
  | cons a as => cases a <;> rfl

theorem pourFromCells_none_cons (col : String) (cs : List (Option String))
    (q : Nat) :
    pourFromCells col (none :: cs) (q + 1) = none :: pourFromCells col cs (q + 1) := rfl

theorem pourFromCells_some_cons (col c : String) (cs : List (Option String))
    (q : Nat) :
    pourFromCells col (some c :: cs) (q + 1) =
      if c = col then none :: pourFromCells col cs q else some c :: cs := rfl

theorem pourFromCells_run (col : String) :
    ∀ (q : Nat) (rest : List (Option String)),
      pourFromCells col (List.replicate q (some col) ++ rest) q =
        List.replicate q none ++ rest := by
  intro q
  induction q with
  | zero => intro rest; simp [pourFromCells_zero]
  | succ n ih =>
    intro rest
    rw [List.replicate_succ, List.cons_append, pourFromCells_some_cons,
      if_pos rfl, ih rest, List.replicate_succ, List.cons_append]

theorem pourFromCells_none_prefix (col : String) :
    ∀ (p : Nat) (l : List (Option String)) (q : Nat),
      pourFromCells col (List.replicate p none ++ l) (q + 1) =
        List.replicate p none ++ pourFromCells col l (q + 1) := by
  intro p
  induction p with
  | zero => intro l q; simp
  | succ n ih =>
    intro l q
    rw [List.replicate_succ, List.cons_append, pourFromCells_none_cons,
      ih l q, List.cons_append]

theorem pourFromCells_spec (col : String) (p q : Nat)
    (rest : List (Option String)) :
    pourFromCells col
        (List.replicate p none ++ List.replicate q (some col) ++ rest) q =
      List.replicate (p + q) none ++ rest := by
  cases q with
  | zero => simp [pourFromCells_zero]
  | succ n =>
    rw [List.append_assoc, pourFromCells_none_prefix, pourFromCells_run,
      ← List.append_assoc, ← List.replicate_add]

theorem pourFromCells_length (col : String) :
    ∀ (l : List (Option String)) (q : Nat),
      (pourFromCells col l q).length = l.length := by
  intro l
  induction l with
  | nil => intro q; cases q <;> rfl
  | cons a l ih =>
    intro q
    cases q with
    | zero => rfl
    | succ n =>
      cases a with
      | none => simpa [pourFromCells_none_cons] using ih (n + 1)
      | some c =>
        by_cases hc : c = col
        · simpa [pourFromCells_some_cons, hc] using ih n
        · simp [pourFromCells_some_cons, hc]

/-! ### The pour-to mutation -/

theorem writeCells_spec (col : String) :
    ∀ (q : Nat) (l : List (Option String)) (s : Nat), s + q ≤ l.length →
      writeCells col l s q =
        some (l.take s ++ List.replicate q (some col) ++ l.drop (s + q)) := by
  intro q
  induction q with
  | zero => intro l s h; simp [writeCells]
  | succ n ih =>
    intro l s h
    have hs : s < l.length := by omega
    simp only [writeCells, if_pos hs]
    have hlen : (l.set s (some col)).length = l.length := List.length_set ..
    rw [ih (l.set s (some col)) (s + 1) (by omega)]
    rw [List.set_eq_take_cons_drop _ hs]
    have hts : (l.take s).length = s := by
      rw [List.length_take]; omega
    have h1 : List.take (s + 1) (l.take s ++ some col :: l.drop (s + 1)) =
        l.take s ++ [some col] := by
      rw [show s + 1 = (l.take s).length + 1 from by omega]
      rw [List.take_append]
      simp
    have h2 : List.drop (s + 1 + n) (l.take s ++ some col :: l.drop (s + 1)) =
        l.drop (s + 1 + n) := by
      rw [show s + 1 + n = (l.take s).length + (n + 1) from by omega,
        List.drop_append, List.drop_succ_cons, List.drop_drop]
      congr 1
      omega
    rw [h1, h2]
    have h3 : s + (n + 1) = s + 1 + n := by omega
    rw [h3, List.replicate_succ]
    simp [List.append_assoc]

/-- `Tube::pour_to` on an entirely empty standard tube fills the bottom
`quantity` cells with the move's colour. -/
theorem pour_to_empty (t : Tube) (m : Move) (htop : t.get_top_colour = none)
    (hlen : t.contents.length = TUBE_SIZE) (hq : m.quantity ≤ TUBE_SIZE) :
    t.pour_to m = some ⟨List.replicate (TUBE_SIZE - m.quantity) none ++
      List.replicate m.quantity (some m.colour), t.tube_number⟩ := by
  have hrep : t.contents = List.replicate TUBE_SIZE none := by
    rw [List.eq_replicate_iff]
    exact ⟨hlen, get_top_colour_none t htop⟩
  have hw : wrapUSub TUBE_SIZE m.quantity = TUBE_SIZE - m.quantity :=
    wrapUSub_of_le _ _ (by unfold TUBE_SIZE; omega) hq
  simp only [Tube.pour_to, htop, hw]
  have harg : TUBE_SIZE - (TUBE_SIZE - m.quantity) = m.quantity := by omega
  rw [harg]
  rw [writeCells_spec _ _ _ _ (by omega)]
  rw [hrep]
  simp only [List.take_replicate, List.drop_replicate]
  rw [show (TUBE_SIZE - m.quantity) ⊓ TUBE_SIZE = TUBE_SIZE - m.quantity from by omega]
  rw [show TUBE_SIZE - (TUBE_SIZE - m.quantity + m.quantity) = 0 from by omega]
  simp

/-- `Tube::pour_to` on a tube whose top segment starts at `cp.pos` fills
the `quantity` cells directly above the segment. -/
theorem pour_to_top (t : Tube) (m : Move) (cp : ColourPos)
    (htop : t.get_top_colour = some cp) (hq : m.quantity ≤ cp.pos)
    (hp64 : cp.pos < 2 ^ 64) :
    t.pour_to m = some ⟨t.contents.take (cp.pos - m.quantity) ++
      List.replicate m.quantity (some m.colour) ++ t.contents.drop cp.pos,
      t.tube_number⟩ := by
  have hpos := get_top_colour_pos_lt t cp htop
  have hw : wrapUSub cp.pos m.quantity = cp.pos - m.quantity :=
    wrapUSub_of_le _ _ hp64 hq
  simp only [Tube.pour_to, htop, hw]
  have harg : cp.pos - (cp.pos - m.quantity) = m.quantity := by omega
  rw [harg]
  rw [writeCells_spec _ _ _ _ (by omega)]
  rw [show cp.pos - m.quantity + m.quantity = cp.pos from by omega]

/-! ### Tops of poured tubes -/

theorem get_top_colour_replicate_prefix (n k : Nat)
    (rest : List (Option String)) :
    Tube.get_top_colour ⟨List.replicate k none ++ rest, n⟩ = none ∨
      ∃ cp, Tube.get_top_colour ⟨List.replicate k none ++ rest, n⟩ = some cp ∧
        k ≤ cp.pos := by
  simp only [Tube.get_top_colour]
  rw [topAux_replicate_none k rest 0, Nat.zero_add]
  cases htop : topAux rest k with
  | none => exact Or.inl rfl
  | some v =>
    obtain ⟨j, c⟩ := v
    obtain ⟨hkj, -, -⟩ := topAux_some rest k j c htop
    exact Or.inr ⟨_, rfl, hkj⟩

/-! ### The move log -/

theorem insertMove_fresh (l : List (Nat × Move)) (k : Nat) (m : Move)
    (h : ∀ p ∈ l, p.1 ≠ k) : insertMove l k m = (k, m) :: l := by
  unfold insertMove
  rw [if_neg]
  simp only [List.any_eq_true, not_exists, not_and]
  intro p hp
  simpa using h p hp

theorem findMove_head (l : List (Nat × Move)) (k : Nat) (m : Move) :
    findMove ((k, m) :: l) k = some m := by
  unfold findMove
  simp [List.find?_cons_of_pos]

/-! ### Validation helpers -/

theorem get_top_colour_eq_none (t : Tube) (h : ∀ c ∈ t.contents, c = none) :
    t.get_top_colour = none := by
  unfold Tube.get_top_colour
  rw [(topAux_none_iff t.contents 0).2 h]

theorem cellsAllColour_total (l : List (Option String)) (col : String) :
    ∀ s q : Nat, s + q ≤ l.length → ∃ b, cellsAllColour l col s q = some b := by
  intro s q
  induction q generalizing s with
  | zero => exact fun _ => ⟨true, rfl⟩
  | succ n ih =>
    intro h
    have hs : s < l.length := by omega
    have hg : l.get? s = some l[s] := List.get?_eq_getElem? .. ▸ List.getElem?_eq_getElem hs
    rw [cellsAllColour_succ, hg]
    cases hc : l[s] with
    | none => exact ⟨false, rfl⟩
    | some c =>
      by_cases hcc : c = col
      · simpa [hcc] using ih (s + 1) (by omega)
      · exact ⟨false, by simp [hcc]⟩

theorem validate_move_true_elim (g : Game) (m : Move) (ft tt : Tube)
    (hft : g.tubes.get? m.tube_from = some ft)
    (htt : g.tubes.get? m.tube_to = some tt)
    (h : g.validate_move m = some true) :
    ft.is_valid_move_from m = some true ∧ tt.is_valid_move_to m = true := by
  unfold Game.validate_move at h
  rw [hft, htt] at h
  simp only at h
  cases hf : ft.is_valid_move_from m with
  | none => rw [hf] at h; exact absurd h (by simp)
  | some b =>
    rw [hf] at h
    cases b with
    | false => exact absurd h (by simp)
    | true =>
      simp only [Option.some.injEq] at h
      exact ⟨rfl, h⟩

theorem allStdLen_spec (g : Game) (h : allStdLen g = true) :
    ∀ t ∈ g.tubes, t.contents.length = TUBE_SIZE := by
  intro t ht
  have := List.all_eq_true.1 h t ht
  simpa using this

theorem movesFresh_spec (g : Game) (h : movesFresh g = true) :
    ∀ p ∈ g.moves, p.1 ≤ g.current_move := by
  intro p hp
  have := List.all_eq_true.1 h p hp
  simpa using this

theorem validate_move_eq (g : Game) (m : Move) (ft tt : Tube)
    (hft : g.tubes.get? m.tube_from = some ft)
    (htt : g.tubes.get? m.tube_to = some tt) :
    g.validate_move m =
      match ft.is_valid_move_from m with
      | none => none
      | some false => some false
      | some true => some (tt.is_valid_move_to m) := by
  unfold Game.validate_move
  rw [hft, htt]

theorem validate_move_of_from_false (g : Game) (m : Move) (ft tt : Tube)
    (hft : g.tubes.get? m.tube_from = some ft)
    (htt : g.tubes.get? m.tube_to = some tt)
    (hf : ft.is_valid_move_from m = some false) :
    g.validate_move m = some false := by
  rw [validate_move_eq g m ft tt hft htt, hf]

theorem validate_move_of_from_true (g : Game) (m : Move) (ft tt : Tube)
    (hft : g.tubes.get? m.tube_from = some ft)
    (htt : g.tubes.get? m.tube_to = some tt)
    (hf : ft.is_valid_move_from m = some true) :
    g.validate_move m = some (tt.is_valid_move_to m) := by
  rw [validate_move_eq g m ft tt hft htt, hf]

theorem validate_move_some_elim (g : Game) (m : Move) (b : Bool)
    (h : g.validate_move m = some b) :
    ∃ ft tt, g.tubes.get? m.tube_from = some ft ∧
      g.tubes.get? m.tube_to = some tt := by
  unfold Game.validate_move at h
  cases hft : g.tubes.get? m.tube_from with
  | none => rw [hft] at h; exact absurd h (by simp)
  | some ft =>
    cases htt : g.tubes.get? m.tube_to with
    | none => rw [hft, htt] at h; exact absurd h (by simp)
    | some tt => exact ⟨ft, tt, rfl, rfl⟩

theorem pour_from_zero (t : Tube) (m : Move) (hq : m.quantity = 0) :
    t.pour_from m = t := by
  unfold Tube.pour_from
  rw [hq, pourFromCells_zero]

theorem pour_from_length (t : Tube) (m : Move) :
    (t.pour_from m).contents.length = t.contents.length :=
  pourFromCells_length ..

/-- If the destination (at the moment `pour_to` runs) is a standard-size
tube and the quantity fits under its top position (or the tube is empty
and the quantity is at most `TUBE_SIZE`), then `pour_to` returns normally
and its fill range stays inside the tube. -/
theorem pour_to_isSome_of_cond (t : Tube) (m : Move)
    (hlen : t.contents.length = TUBE_SIZE) (hq4 : m.quantity ≤ TUBE_SIZE)
    (hcond : t.get_top_colour = none ∨
      ∃ cp, t.get_top_colour = some cp ∧ m.quantity ≤ cp.pos) :
    (t.pour_to m).isSome = true ∧ pourToRangeSafe t m = true := by
  cases hcond with
  | inl htop =>
    rw [pour_to_empty t m htop hlen hq4]
    unfold pourToRangeSafe
    rw [htop]
    exact ⟨rfl, by simpa using hq4⟩
  | inr hex =>
    obtain ⟨cp, htop, hq⟩ := hex
    have hpos : cp.pos < TUBE_SIZE := hlen ▸ get_top_colour_pos_lt t cp htop
    rw [pour_to_top t m cp htop hq (by unfold TUBE_SIZE at hpos; omega)]
    unfold pourToRangeSafe
    rw [htop]
    refine ⟨rfl, ?_⟩
    simp only [Bool.and_eq_true, decide_eq_true_eq]
    exact ⟨hq, le_of_lt hpos⟩

/-- The destination tube at the moment `pour_to` runs (after `pour_from`
has updated the source) satisfies the conditions of
`pour_to_isSome_of_cond`, for any validated move on a standard game. -/
theorem dest_after_pour_cond (g : Game) (m : Move) (ft tt tt1 : Tube)
    (hstd : allStdLen g = true)
    (hft : g.tubes.get? m.tube_from = some ft)
    (htt : g.tubes.get? m.tube_to = some tt)
    (hfrom : ft.is_valid_move_from m = some true)
    (hto : tt.is_valid_move_to m = true)
    (htt1 : (g.tubes.set m.tube_from (ft.pour_from m)).get? m.tube_to = some tt1) :
    tt1.contents.length = TUBE_SIZE ∧ m.quantity ≤ TUBE_SIZE ∧
      (tt1.get_top_colour = none ∨
        ∃ cp, tt1.get_top_colour = some cp ∧ m.quantity ≤ cp.pos) := by
  have hlenft : ft.contents.length = TUBE_SIZE :=
    allStdLen_spec g hstd ft (List.get?_mem hft)
  have hlentt : tt.contents.length = TUBE_SIZE :=
    allStdLen_spec g hstd tt (List.get?_mem htt)
  obtain ⟨-, hq4, hcases⟩ := is_valid_move_from_decomp ft m hfrom
  by_cases heq : m.tube_from = m.tube_to
  · -- self-move: the destination is the source tube after pouring out
    have hlt : m.tube_from < g.tubes.length := List.get?_eq_some.1 hft |>.1
    have htt1' : tt1 = ft.pour_from m := by
      rw [List.get?_eq_getElem?, ← heq, List.getElem?_set_self (by simpa using hlt)] at htt1
      exact (Option.some.inj htt1).symm
    subst htt1'
    refine ⟨by rw [pour_from_length]; exact hlenft, hq4, ?_⟩
    cases hcases with
    | inl hc =>
      obtain ⟨htopf, hq0⟩ := hc
      rw [pour_from_zero ft m hq0, htopf]
      exact Or.inl rfl
    | inr hc =>
      obtain ⟨cp, htopf, hle, hcells⟩ := hc
      obtain ⟨htake, -, -⟩ := get_top_colour_some ft cp htopf
      have hdecomp := contents_decomp_of_valid_from ft.contents m.colour
        cp.pos m.quantity htake hcells
      have hpf : (ft.pour_from m).contents =
          List.replicate (cp.pos + m.quantity) none ++
            ft.contents.drop (cp.pos + m.quantity) := by
        show pourFromCells m.colour ft.contents m.quantity = _
        conv_lhs => rw [hdecomp]
        exact pourFromCells_spec ..
      have hpt : ft.pour_from m = ⟨List.replicate (cp.pos + m.quantity) none ++
          ft.contents.drop (cp.pos + m.quantity), ft.tube_number⟩ := by
        cases hft2 : ft.pour_from m with
        | mk cs num =>
          have h1 : cs = (ft.pour_from m).contents := by rw [hft2]
          have h2 : num = (ft.pour_from m).tube_number := by rw [hft2]
          have h3 : (ft.pour_from m).tube_number = ft.tube_number := rfl
          rw [h1, h2, hpf, h3]
      rw [hpt]
      rcases get_top_colour_replicate_prefix ft.tube_number
          (cp.pos + m.quantity) (ft.contents.drop (cp.pos + m.quantity)) with
        hnone | ⟨cp', htop', hge⟩
      · exact Or.inl hnone
      · exact Or.inr ⟨cp', htop', by omega⟩
  · -- distinct tubes: the destination is untouched by `pour_from`
    have htt1' : tt1 = tt := by
      rw [List.get?_eq_getElem?, List.getElem?_set_ne heq] at htt1
      rw [List.get?_eq_getElem? g.tubes m.tube_to, htt1] at htt
      exact Option.some.inj htt
    rw [htt1']
    obtain ⟨-, hdest⟩ := is_valid_move_to_decomp tt m hq4 hlentt hto
    refine ⟨hlentt, hq4, ?_⟩
    cases hdest with
    | inl h => exact Or.inl h
    | inr h =>
      obtain ⟨cp, htop, -, hle⟩ := h
      exact Or.inr ⟨cp, htop, hle⟩

/-- Assembled success of `Game::make_move` on a validated move: the pours
go through and the result is the expected record. -/
theorem make_move_valid_eq (g : Game) (m : Move) (ft tt1 tt2 : Tube)
    (hv : g.validate_move m = some true)
    (hft : g.tubes.get? m.tube_from = some ft)
    (htt1 : (g.tubes.set m.tube_from (ft.pour_from m)).get? m.tube_to = some tt1)
    (hpt : tt1.pour_to m = some tt2) :
    g.make_move m = some ⟨(g.tubes.set m.tube_from (ft.pour_from m)).set
        m.tube_to tt2,
      insertMove g.moves (g.current_move + 1) m, g.current_move + 1,
      g.colours⟩ := by
  simp only [Game.make_move, hv, hft, htt1, hpt]

/-- `ft.pour_from m` on a tube whose top segment provides the validated
cells: the former top `quantity` cells become empty. -/
theorem pour_from_valid_eq (t : Tube) (m : Move) (cp : ColourPos)
    (htop : t.get_top_colour = some cp)
    (hcells : ∀ j, j < m.quantity →
      t.contents.get? (cp.pos + j) = some (some m.colour)) :
    t.pour_from m = ⟨List.replicate (cp.pos + m.quantity) none ++
      t.contents.drop (cp.pos + m.quantity), t.tube_number⟩ := by
  obtain ⟨htake, -, -⟩ := get_top_colour_some t cp htop
  have hdecomp := contents_decomp_of_valid_from t.contents m.colour
    cp.pos m.quantity htake hcells
  have hpf : (t.pour_from m).contents =
      List.replicate (cp.pos + m.quantity) none ++
        t.contents.drop (cp.pos + m.quantity) := by
    show pourFromCells m.colour t.contents m.quantity = _
    conv_lhs => rw [hdecomp]
    exact pourFromCells_spec ..
  cases hres : t.pour_from m with
  | mk cs num =>
    have h1 : cs = (t.pour_from m).contents := by rw [hres]
    have h2 : num = (t.pour_from m).tube_number := by rw [hres]
    have h3 : (t.pour_from m).tube_number = t.tube_number := rfl
    rw [h1, h2, hpf, h3]

/-- `Tube::is_valid_move_from` never aborts on a standard-size tube. -/
theorem is_valid_move_from_total (t : Tube) (m : Move)
    (hlen : t.contents.length = TUBE_SIZE) :
    ∃ b, t.is_valid_move_from m = some b := by
  unfold Tube.is_valid_move_from
  by_cases hn : t.tube_number ≠ m.tube_from
  · rw [if_pos hn]; exact ⟨false, rfl⟩
  rw [if_neg hn]
  cases htop : t.get_top_colour with
  | none =>
    simp only
    by_cases hq : 0 + m.quantity > TUBE_SIZE
    · rw [if_pos hq]; exact ⟨false, rfl⟩
    · rw [if_neg hq]
      exact cellsAllColour_total t.contents m.colour 0 m.quantity (by omega)
  | some cp =>
    simp only
    by_cases hq : cp.pos + m.quantity > TUBE_SIZE
    · rw [if_pos hq]; exact ⟨false, rfl⟩
    · rw [if_neg hq]
      exact cellsAllColour_total t.contents m.colour cp.pos m.quantity (by omega)

/-! ### Cell counting -/

theorem countColour_append (col : String) (a b : List (Option String)) :
    countColour col (a ++ b) = countColour col a + countColour col b :=
  List.count_append ..

theorem countColour_replicate_none (col : String) (n : Nat) :
    countColour col (List.replicate n none) = 0 := by
  unfold countColour
  rw [List.count_replicate]
  simp

theorem countColour_replicate_self (col : String) (n : Nat) :
    countColour col (List.replicate n (some col)) = n := by
  unfold countColour
  rw [List.count_replicate]
  simp

theorem countFilled_append (a b : List (Option String)) :
    countFilled (a ++ b) = countFilled a + countFilled b := by
  unfold countFilled
  rw [List.filter_append, List.length_append]

theorem countFilled_replicate_none (n : Nat) :
    countFilled (List.replicate n none) = 0 := by
  unfold countFilled
  rw [List.filter_replicate]
  simp

theorem countFilled_replicate_some (c : String) (n : Nat) :
    countFilled (List.replicate n (some c)) = n := by
  unfold countFilled
  rw [List.filter_replicate]
  simp

/-! ### Claim C2 -/

/-- Claim C2: for every game and every move `m` with `isMoveLegal(m)`
false, `applyMove(m)` is a silent no-op signalling no error: the returned
game is the input game, so tubes, move counter and move log are all
byte-for-byte unchanged. -/
theorem c2_illegal_move_is_noop (g : Game) (m : Move)
    (h : g.validate_move m = some false) : g.make_move m = some g := by
  unfold Game.make_move
  rw [h]

/-- Witness for C2 at a concrete game and an illegal move (pouring red
onto blue). -/
theorem c2_illegal_move_is_noop_witness :
    gW2.validate_move ⟨0, 1, "red", 1⟩ = some false ∧
      gW2.make_move ⟨0, 1, "red", 1⟩ = some gW2 :=
  ⟨by decide, c2_illegal_move_is_noop gW2 ⟨0, 1, "red", 1⟩ (by decide)⟩

/-! ### Claim C7 -/

/-- Claim C7: the game-wide block count of a single tube built from
`"red,red,red,red"` is 1, from `"red,blue,red,blue"` is 4, and of an
entirely empty tube is 0; a solved single-colour tube contributes exactly
1 and a fully empty tube contributes 0. -/
theorem c7_block_counts :
    gC7a.get_number_of_blocks = 1 ∧
      gC7b.get_number_of_blocks = 4 ∧
      gC7c.get_number_of_blocks = 0 ∧
      (∀ c : String, blocksInTube none (List.replicate TUBE_SIZE (some c)) = 1) ∧
      blocksInTube none (List.replicate TUBE_SIZE none) = 0 := by
  refine ⟨by decide, by decide, by decide, ?_, by decide⟩
  intro c
  show blocksInTube none (List.replicate 4 (some c)) = 1
  simp [List.replicate, blocksInTube]

/-! ### Claim C4 -/

/-- Counterexample to claim C6 as stated: `init_tubes` does not reset the
move log or the colour set — on a game with a recorded move and a seen
colour, both survive `init_tubes(4)` unchanged (the claim says they
become empty). -/
theorem c6_counterexample :
    (gC6.init_tubes 4).map Game.moves = some [(1, ⟨0, 1, "red", 1⟩)] ∧
      (gC6.init_tubes 4).map Game.colours = some ["red"] ∧
      (gC6.init_tubes 4).map Game.current_move = some 1 ∧
      ([(1, (⟨0, 1, "red", 1⟩ : Move))] : List (Nat × Move)) ≠ [] ∧
      (["red"] : List String) ≠ [] := by
  refine ⟨by decide, by decide, by decide, by decide, by decide⟩

/-- Claim C6 (amended): `initTubes(n)` fails fatally when `n < 4`;
otherwise it replaces the tube collection with `n` empty tubes indexed
`0..n-1` and leaves the move log, the move counter and the colour set
unchanged (it does not reset them; on a fresh game they are already
empty). -/
theorem c6_init_tubes (g : Game) (n : Nat) :
    (n < 4 → g.init_tubes n = none) ∧
    (4 ≤ n →
      g.init_tubes n = some ⟨(List.range n).map (Tube.from_string ""),
        g.moves, g.current_move, g.colours⟩ ∧
      ∀ i, i < n → ((List.range n).map (Tube.from_string "")).get? i =
        some ⟨List.replicate TUBE_SIZE none, i⟩) := by
  constructor
  · intro h
    unfold Game.init_tubes
    rw [if_pos h]
  · intro h
    constructor
    · unfold Game.init_tubes
      rw [if_neg (by omega)]
    · intro i hi
      rw [List.get?_eq_getElem?, List.getElem?_map, List.getElem?_range hi]
      rfl

/-- Witness for the amended C6: `init_tubes 3` aborts, and `init_tubes 5`
on a game with a non-empty log keeps the log while installing 5 empty
tubes. -/
theorem c6_init_tubes_witness :
    gW6.init_tubes 3 = none ∧
      gW6.init_tubes 5 = some ⟨(List.range 5).map (Tube.from_string ""),
        gW6.moves, gW6.current_move, gW6.colours⟩ ∧
      ((List.range 5).map (Tube.from_string "")).get? 4 =
        some ⟨List.replicate TUBE_SIZE none, 4⟩ :=
  ⟨(c6_init_tubes gW6 3).1 (by decide),
    ((c6_init_tubes gW6 5).2 (by decide)).1,
    ((c6_init_tubes gW6 5).2 (by decide)).2 4 (by decide)⟩

/-! ### Claim C5, counterexample -/

/-- Counterexample to claim C5 as stated: constructing a `Solver` from the
game produced by `init_tubes(4)` (four empty tubes, block count 0) aborts
on the `usize` underflow `0 - (4 - 2)`, and `isMoveLegal`/`applyMove`
abort on an out-of-range source tube index (9 in a 4-tube game) instead
of returning normally. -/
theorem c5_counterexample :
    Solver.new gC5 = none ∧ gC5.validate_move ⟨9, 0, "red", 1⟩ = none ∧
      gC5.make_move ⟨9, 0, "red", 1⟩ = none := by
  refine ⟨by decide, by decide, by decide⟩

/-- Claim C5 (amended): on games whose tubes have the standard
`TUBE_SIZE` cells, `isMoveLegal` and `applyMove` return normally for
every quantity and colour provided the move's tube indices are in range
(out-of-range indices abort on the tube lookup); constructing a `Solver`
returns normally whenever the game has at least 2 tubes and its block
count is at least `tubeCount - 2` (otherwise the bucket-count `usize`
subtraction aborts). -/
theorem c5_in_range_no_abort :
    (∀ (g : Game) (m : Move), allStdLen g = true →
      m.tube_from < g.tubes.length → m.tube_to < g.tubes.length →
      (g.validate_move m).isSome = true ∧ (g.make_move m).isSome = true) ∧
    (∀ g : Game, 2 ≤ g.tubes.length →
      g.tubes.length - 2 ≤ g.get_number_of_blocks →
      (Solver.new g).isSome = true) := by
  constructor
  · intro g m hstd h1 h2
    have hft : g.tubes.get? m.tube_from = some g.tubes[m.tube_from] := by
      rw [List.get?_eq_getElem?, List.getElem?_eq_getElem h1]
    have htt : g.tubes.get? m.tube_to = some g.tubes[m.tube_to] := by
      rw [List.get?_eq_getElem?, List.getElem?_eq_getElem h2]
    set ft := g.tubes[m.tube_from] with hftdef
    set tt := g.tubes[m.tube_to] with httdef
    have hlenft : ft.contents.length = TUBE_SIZE :=
      allStdLen_spec g hstd ft (List.get?_mem hft)
    obtain ⟨bf, hbf⟩ := is_valid_move_from_total ft m hlenft
    cases bf with
    | false =>
      have hv : g.validate_move m = some false :=
        validate_move_of_from_false g m ft tt hft htt hbf
      constructor
      · rw [hv]; rfl
      · rw [c2_illegal_move_is_noop g m hv]; rfl
    | true =>
      have hv : g.validate_move m = some (tt.is_valid_move_to m) :=
        validate_move_of_from_true g m ft tt hft htt hbf
      cases hb : tt.is_valid_move_to m with
      | false =>
        rw [hb] at hv
        constructor
        · rw [hv]; rfl
        · rw [c2_illegal_move_is_noop g m hv]; rfl
      | true =>
        rw [hb] at hv
        refine ⟨by rw [hv]; rfl, ?_⟩
        have h2' : m.tube_to <
            (g.tubes.set m.tube_from (ft.pour_from m)).length := by
          rw [List.length_set]; exact h2
        have htt1 : (g.tubes.set m.tube_from (ft.pour_from m)).get? m.tube_to =
            some (g.tubes.set m.tube_from (ft.pour_from m))[m.tube_to] := by
          rw [List.get?_eq_getElem?, List.getElem?_eq_getElem h2']
        set tt1 := (g.tubes.set m.tube_from (ft.pour_from m))[m.tube_to]
          with htt1def
        obtain ⟨hfrom, hto⟩ := validate_move_true_elim g m ft tt hft htt hv
        obtain ⟨hlen1, hq4, hcond⟩ :=
          dest_after_pour_cond g m ft tt tt1 hstd hft htt hfrom hto htt1
        obtain ⟨hsome, -⟩ := pour_to_isSome_of_cond tt1 m hlen1 hq4 hcond
        obtain ⟨tt2, hpt⟩ := Option.isSome_iff_exists.1 hsome
        rw [make_move_valid_eq g m ft tt1 tt2 hv hft htt1 hpt]
        rfl
  · intro g h2 hble
    unfold Solver.new
    by_cases heq : g.get_number_of_blocks + 2 = g.tubes.length
    · rw [if_pos heq]; rfl
    · rw [if_neg heq, if_neg (by omega), if_neg (by omega)]
      have hk : g.get_number_of_blocks - (g.tubes.length - 2) =
          (g.get_number_of_blocks - (g.tubes.length - 2) - 1) + 1 := by omega
      rw [hk, List.replicate_succ]
      rfl

/-- Witness for the amended C5: an oversized quantity is rejected without
aborting, `applyMove` of it is a normal no-op, and a solver is built
normally from a mid-game position. -/
theorem c5_in_range_no_abort_witness :
    (gW5.validate_move ⟨0, 1, "red", 99⟩).isSome = true ∧
      (gW5.make_move ⟨0, 1, "red", 99⟩).isSome = true ∧
      (Solver.new gW5).isSome = true :=
  ⟨(c5_in_range_no_abort.1 gW5 ⟨0, 1, "red", 99⟩ (by decide) (by decide)
      (by decide)).1,
    (c5_in_range_no_abort.1 gW5 ⟨0, 1, "red", 99⟩ (by decide) (by decide)
      (by decide)).2,
    c5_in_range_no_abort.2 gW5 (by decide) (by decide)⟩

/-! ### Claim C10 -/

/-- Claim C10: for every standard game and every move passing
`validate_move`, the index arithmetic of `pour_to` on the destination
tube (as it stands when `pour_to` runs inside `make_move`, i.e. after
`pour_from`) neither underflows nor goes out of bounds: the fill range
`[top − quantity, top)` (or `[TUBE_SIZE − quantity, TUBE_SIZE)` for an
empty destination) lies inside `0..TUBE_SIZE`, every write is in bounds,
and the whole of `make_move` returns normally. -/
theorem c10_pour_to_in_bounds (g : Game) (m : Move) (ft tt1 : Tube)
    (hstd : allStdLen g = true)
    (hv : g.validate_move m = some true)
    (hft : g.tubes.get? m.tube_from = some ft)
    (htt1 : (g.tubes.set m.tube_from (ft.pour_from m)).get? m.tube_to =
      some tt1) :
    pourToRangeSafe tt1 m = true ∧ (tt1.pour_to m).isSome = true ∧
      (g.make_move m).isSome = true := by
  obtain ⟨ft', tt, hft', htt⟩ := validate_move_some_elim g m true hv
  have hfteq : ft' = ft := by
    rw [hft] at hft'
    exact (Option.some.inj hft').symm
  subst hfteq
  obtain ⟨hfrom, hto⟩ := validate_move_true_elim g m ft' tt hft htt hv
  obtain ⟨hlen1, hq4, hcond⟩ :=
    dest_after_pour_cond g m ft' tt tt1 hstd hft htt hfrom hto htt1
  obtain ⟨hsome, hsafe⟩ := pour_to_isSome_of_cond tt1 m hlen1 hq4 hcond
  obtain ⟨tt2, hpt⟩ := Option.isSome_iff_exists.1 hsome
  refine ⟨hsafe, hsome, ?_⟩
  rw [make_move_valid_eq g m ft' tt1 tt2 hv hft htt1 hpt]
  rfl

/-- Witness for C10 at the spec's end-to-end scenario: the legal move
`(0 → 2, blue, 1)` keeps the destination fill range inside the tube. -/
theorem c10_pour_to_in_bounds_witness :
    pourToRangeSafe tW10 ⟨0, 2, "blue", 1⟩ = true ∧
      (tW10.pour_to ⟨0, 2, "blue", 1⟩).isSome = true ∧
      (gW10.make_move ⟨0, 2, "blue", 1⟩).isSome = true :=
  c10_pour_to_in_bounds gW10 ⟨0, 2, "blue", 1⟩
    (Tube.from_string "blue, red, blue, red" 0) tW10 (by decide) (by decide)
    (by decide) (by decide)

/-! ### Claim C1 -/

theorem findMove_map_replace (k : Nat) (m : Move) :
    ∀ l : List (Nat × Move), (l.any fun p => p.1 = k) = true →
      findMove (l.map fun p => if p.1 = k then (k, m) else p) k = some m := by
  intro l
  induction l with
  | nil => intro h; simp at h
  | cons p rest ih =>
    intro h
    simp only [List.map_cons]
    by_cases hp : p.1 = k
    · rw [if_pos hp]
      unfold findMove
      rw [List.find?_cons_of_pos _ (by simp)]
      rfl
    · rw [if_neg hp]
      unfold findMove
      rw [List.find?_cons_of_neg _ (by simpa using hp)]
      have h' : (rest.any fun p => p.1 = k) = true := by
        simp only [List.any_cons, hp] at h
        simpa using h
      exact ih h'

/-- `HashMap::get` at `k` after `HashMap::insert` of `(k, m)` always
yields `m`, whether or not `k` was present. -/
theorem findMove_insertMove (l : List (Nat × Move)) (k : Nat) (m : Move) :
    findMove (insertMove l k m) k = some m := by
  unfold insertMove
  by_cases h : (l.any fun p => p.1 = k) = true
  · rw [if_pos h]
    exact findMove_map_replace k m l h
  · rw [if_neg h]
    exact findMove_head l k m

/-- Claim C1. General clause: for every standard game and every move
passing `validate_move`, `make_move` performs `pour_from` on the source,
then `pour_to` on the destination of the already-updated tube vector,
then increments the move counter by exactly 1, and records the move at
the new counter value — and the entry found at the new counter value is
the applied move. Particular clause: for a legal move of quantity `q`
with the source's top colour into an entirely empty destination, the
source's former top `q` cells become empty, the destination's bottom `q`
cells take the colour, the move log grows by exactly one entry, and the
entry recorded at the new counter value is the applied move. -/
theorem c1_legal_move_applies :
    (∀ (g : Game) (m : Move), allStdLen g = true →
      g.validate_move m = some true →
      ∃ ft tt1 tt2,
        g.tubes.get? m.tube_from = some ft ∧
        (g.tubes.set m.tube_from (ft.pour_from m)).get? m.tube_to = some tt1 ∧
        tt1.pour_to m = some tt2 ∧
        g.make_move m = some ⟨(g.tubes.set m.tube_from (ft.pour_from m)).set
            m.tube_to tt2,
          insertMove g.moves (g.current_move + 1) m, g.current_move + 1,
          g.colours⟩ ∧
        findMove (insertMove g.moves (g.current_move + 1) m)
          (g.current_move + 1) = some m) ∧
    (∀ (g : Game) (m : Move) (ft tt : Tube) (cp : ColourPos),
      g.tubes.get? m.tube_from = some ft →
      g.tubes.get? m.tube_to = some tt →
      m.tube_from ≠ m.tube_to →
      g.validate_move m = some true →
      1 ≤ m.quantity →
      ft.get_top_colour = some cp →
      tt.contents = List.replicate TUBE_SIZE none →
      movesFresh g = true →
      cp.colour = m.colour ∧
        g.make_move m = some ⟨(g.tubes.set m.tube_from
            ⟨List.replicate (cp.pos + m.quantity) none ++
              ft.contents.drop (cp.pos + m.quantity), ft.tube_number⟩).set
            m.tube_to
            ⟨List.replicate (TUBE_SIZE - m.quantity) none ++
              List.replicate m.quantity (some m.colour), tt.tube_number⟩,
          (g.current_move + 1, m) :: g.moves, g.current_move + 1, g.colours⟩ ∧
        ((g.current_move + 1, m) :: g.moves).length = g.moves.length + 1 ∧
        findMove ((g.current_move + 1, m) :: g.moves) (g.current_move + 1) =
          some m) := by
  constructor
  · intro g m hstd hv
    obtain ⟨ft, tt, hft, htt⟩ := validate_move_some_elim g m true hv
    obtain ⟨hfrom, hto⟩ := validate_move_true_elim g m ft tt hft htt hv
    have hlt1 : m.tube_to <
        (g.tubes.set m.tube_from (ft.pour_from m)).length := by
      rw [List.length_set]
      exact (List.get?_eq_some.1 htt).1
    have htt1 : (g.tubes.set m.tube_from (ft.pour_from m)).get? m.tube_to =
        some (g.tubes.set m.tube_from (ft.pour_from m))[m.tube_to] := by
      rw [List.get?_eq_getElem?, List.getElem?_eq_getElem hlt1]
    obtain ⟨hlen1, hq4, hcond⟩ := dest_after_pour_cond g m ft tt
      (g.tubes.set m.tube_from (ft.pour_from m))[m.tube_to] hstd hft htt
      hfrom hto htt1
    obtain ⟨hsome, -⟩ := pour_to_isSome_of_cond _ m hlen1 hq4 hcond
    obtain ⟨tt2, hpt⟩ := Option.isSome_iff_exists.1 hsome
    exact ⟨ft, _, tt2, hft, htt1, hpt,
      make_move_valid_eq g m ft _ tt2 hv hft htt1 hpt,
      findMove_insertMove g.moves (g.current_move + 1) m⟩
  intro g m ft tt cp hft htt hne hv hq1 hcp hB hfresh
  obtain ⟨hfrom, hto⟩ := validate_move_true_elim g m ft tt hft htt hv
  obtain ⟨-, hq4, hcases⟩ := is_valid_move_from_decomp ft m hfrom
  have hcells : ∀ j, j < m.quantity →
      ft.contents.get? (cp.pos + j) = some (some m.colour) := by
    cases hcases with
    | inl hc => rw [hc.1] at hcp; exact absurd hcp (by simp)
    | inr hc =>
      obtain ⟨cp', hcp', -, hcells'⟩ := hc
      rw [hcp] at hcp'
      rw [Option.some.inj hcp']
      exact hcells'
  have hcol : cp.colour = m.colour := by
    obtain ⟨-, hget, -⟩ := get_top_colour_some ft cp hcp
    have h0 := hcells 0 (by omega)
    rw [Nat.add_zero] at h0
    rw [hget] at h0
    simpa using (Option.some.inj h0)
  have hpf := pour_from_valid_eq ft m cp hcp hcells
  have htopB : tt.get_top_colour = none := by
    apply get_top_colour_eq_none
    rw [hB]
    intro c hc
    exact List.eq_of_mem_replicate hc
  have hlenB : tt.contents.length = TUBE_SIZE := by
    rw [hB, List.length_replicate]
  have hpt := pour_to_empty tt m htopB hlenB hq4
  have hlt1 : m.tube_to < (g.tubes.set m.tube_from (ft.pour_from m)).length := by
    rw [List.length_set]
    exact (List.get?_eq_some.1 htt).1
  have htt1 : (g.tubes.set m.tube_from (ft.pour_from m)).get? m.tube_to =
      some tt := by
    rw [List.get?_eq_getElem?, List.getElem?_set_ne hne, ← List.get?_eq_getElem?]
    exact htt
  have hmm := make_move_valid_eq g m ft tt _ hv hft htt1 hpt
  have hins : insertMove g.moves (g.current_move + 1) m =
      (g.current_move + 1, m) :: g.moves := by
    apply insertMove_fresh
    intro p hp
    have := movesFresh_spec g hfresh p hp
    omega
  rw [hins, hpf] at hmm
  exact ⟨hcol, hmm, by simp, findMove_head ..⟩

/-- Witness for C1: pouring the two red cells from tube 0 of `gW1` into
its empty tube 1, instantiating both the general clause and the
particular empty-destination clause. -/
theorem c1_legal_move_applies_witness :
    (∃ ft tt1 tt2,
        gW1.tubes.get? 0 = some ft ∧
        (gW1.tubes.set 0 (ft.pour_from ⟨0, 1, "red", 2⟩)).get? 1 = some tt1 ∧
        tt1.pour_to ⟨0, 1, "red", 2⟩ = some tt2 ∧
        gW1.make_move ⟨0, 1, "red", 2⟩ =
          some ⟨(gW1.tubes.set 0 (ft.pour_from ⟨0, 1, "red", 2⟩)).set 1 tt2,
            insertMove gW1.moves (gW1.current_move + 1) ⟨0, 1, "red", 2⟩,
            gW1.current_move + 1, gW1.colours⟩ ∧
        findMove
          (insertMove gW1.moves (gW1.current_move + 1) ⟨0, 1, "red", 2⟩)
          (gW1.current_move + 1) = some ⟨0, 1, "red", 2⟩) ∧
    ((⟨"red", 2, 2⟩ : ColourPos).colour = (⟨0, 1, "red", 2⟩ : Move).colour ∧
      gW1.make_move ⟨0, 1, "red", 2⟩ = some ⟨(gW1.tubes.set 0
          ⟨List.replicate (2 + 2) none ++ tW1a.contents.drop (2 + 2),
            tW1a.tube_number⟩).set 1
          ⟨List.replicate (TUBE_SIZE - 2) none ++
            List.replicate 2 (some "red"), tW1b.tube_number⟩,
        (gW1.current_move + 1, ⟨0, 1, "red", 2⟩) :: gW1.moves,
        gW1.current_move + 1, gW1.colours⟩ ∧
      ((gW1.current_move + 1, (⟨0, 1, "red", 2⟩ : Move)) :: gW1.moves).length =
        gW1.moves.length + 1 ∧
      findMove ((gW1.current_move + 1, (⟨0, 1, "red", 2⟩ : Move)) :: gW1.moves)
        (gW1.current_move + 1) = some ⟨0, 1, "red", 2⟩) :=
  ⟨c1_legal_move_applies.1 gW1 ⟨0, 1, "red", 2⟩ (by decide) (by decide),
   c1_legal_move_applies.2 gW1 ⟨0, 1, "red", 2⟩ tW1a tW1b ⟨"red", 2, 2⟩
     (by decide) (by decide) (by decide) (by decide) (by decide) (by decide)
     (by decide) (by decide)⟩

/-! ### Claim C8 -/

/-- Claim C8: for every pair of tubes and a move legal between them
(quantity `q`, colour `c`), `pour_from` on the source followed by
`pour_to` on the destination conserves colour-holding cells: the source
loses exactly `q` cells of `c`, the destination gains exactly `q` cells
of `c`, so the total over the two tubes is conserved. -/
theorem c8_pour_conservation (ft tt : Tube) (m : Move)
    (hvf : ft.is_valid_move_from m = some true)
    (hvt : tt.is_valid_move_to m = true)
    (hlen : tt.contents.length = TUBE_SIZE) :
    (tt.pour_to m).isSome = true ∧
      tubeColourCount m.colour (ft.pour_from m) + m.quantity =
        tubeColourCount m.colour ft ∧
      tubeFilledCount (ft.pour_from m) + m.quantity = tubeFilledCount ft ∧
      (tt.pour_to m).map (tubeColourCount m.colour) =
        some (tubeColourCount m.colour tt + m.quantity) ∧
      (tt.pour_to m).map tubeFilledCount =
        some (tubeFilledCount tt + m.quantity) := by
  obtain ⟨-, hq4, hcases⟩ := is_valid_move_from_decomp ft m hvf
  have hsource1 : tubeColourCount m.colour (ft.pour_from m) + m.quantity =
      tubeColourCount m.colour ft := by
    cases hcases with
    | inl hc => rw [pour_from_zero ft m hc.2, hc.2, Nat.add_zero]
    | inr hc =>
      obtain ⟨cp, htop, -, hcells⟩ := hc
      obtain ⟨htake, -, -⟩ := get_top_colour_some ft cp htop
      have hdecomp := contents_decomp_of_valid_from ft.contents m.colour
        cp.pos m.quantity htake hcells
      rw [pour_from_valid_eq ft m cp htop hcells]
      show countColour m.colour _ + m.quantity = countColour m.colour ft.contents
      conv_rhs => rw [hdecomp]
      rw [countColour_append, countColour_append, countColour_append,
        countColour_replicate_none, countColour_replicate_none,
        countColour_replicate_self]
      omega
  have hsource2 : tubeFilledCount (ft.pour_from m) + m.quantity =
      tubeFilledCount ft := by
    cases hcases with
    | inl hc => rw [pour_from_zero ft m hc.2, hc.2, Nat.add_zero]
    | inr hc =>
      obtain ⟨cp, htop, -, hcells⟩ := hc
      obtain ⟨htake, -, -⟩ := get_top_colour_some ft cp htop
      have hdecomp := contents_decomp_of_valid_from ft.contents m.colour
        cp.pos m.quantity htake hcells
      rw [pour_from_valid_eq ft m cp htop hcells]
      show countFilled _ + m.quantity = countFilled ft.contents
      conv_rhs => rw [hdecomp]
      rw [countFilled_append, countFilled_append, countFilled_append,
        countFilled_replicate_none, countFilled_replicate_none,
        countFilled_replicate_some]
      omega
  obtain ⟨-, hdest⟩ := is_valid_move_to_decomp tt m hq4 hlen hvt
  have hdest2 : ∃ cs, tt.pour_to m = some ⟨cs, tt.tube_number⟩ ∧
      countColour m.colour cs = countColour m.colour tt.contents + m.quantity ∧
      countFilled cs = countFilled tt.contents + m.quantity := by
    cases hdest with
    | inl htop =>
      have hrep : tt.contents = List.replicate TUBE_SIZE none := by
        rw [List.eq_replicate_iff]
        exact ⟨hlen, get_top_colour_none tt htop⟩
      refine ⟨_, pour_to_empty tt m htop hlen hq4, ?_, ?_⟩
      · rw [hrep, countColour_append, countColour_replicate_none,
          countColour_replicate_none, countColour_replicate_self]
      · rw [hrep, countFilled_append, countFilled_replicate_none,
          countFilled_replicate_none, countFilled_replicate_some]
    | inr hex =>
      obtain ⟨cp, htop, -, hq⟩ := hex
      have hpos : cp.pos < TUBE_SIZE := hlen ▸ get_top_colour_pos_lt tt cp htop
      obtain ⟨htake, -, -⟩ := get_top_colour_some tt cp htop
      have htakeq : tt.contents.take (cp.pos - m.quantity) =
          List.replicate (cp.pos - m.quantity) none := by
        have h1 : tt.contents.take (cp.pos - m.quantity) =
            (tt.contents.take cp.pos).take (cp.pos - m.quantity) := by
          rw [List.take_take]
          congr 1
          omega
        rw [h1, htake, List.take_replicate]
        congr 1
        omega
      have hsplit : tt.contents =
          List.replicate cp.pos none ++ tt.contents.drop cp.pos := by
        conv_lhs => rw [← List.take_append_drop cp.pos tt.contents]
        rw [htake]
      refine ⟨_, pour_to_top tt m cp htop hq
        (by unfold TUBE_SIZE at hpos; omega), ?_, ?_⟩
      · rw [htakeq, countColour_append, countColour_append,
          countColour_replicate_none, countColour_replicate_self]
        conv_rhs => rw [hsplit]
        rw [countColour_append, countColour_replicate_none]
        omega
      · rw [htakeq, countFilled_append, countFilled_append,
          countFilled_replicate_none, countFilled_replicate_some]
        conv_rhs => rw [hsplit]
        rw [countFilled_append, countFilled_replicate_none]
        omega
  obtain ⟨cs, hpt, hc1, hc2⟩ := hdest2
  refine ⟨by rw [hpt]; rfl, hsource1, hsource2, ?_, ?_⟩
  · rw [hpt]
    simp only [Option.map_some, tubeColourCount]
    exact congrArg some hc1
  · rw [hpt]
    simp only [Option.map_some, tubeFilledCount]
    exact congrArg some hc2

/-! ### Claim C3 -/

theorem enumF_mem (l : List Tube) :
    ∀ (k : Nat) (p : Nat × Tube), p ∈ enumF k l → p.2 ∈ l := by
  induction l with
  | nil => intro k p hp; simp [enumF] at hp
  | cons t ts ih =>
    intro k p hp
    simp only [enumF, List.mem_cons] at hp
    cases hp with
    | inl h => rw [h]; exact List.mem_cons_self ..
    | inr h => exact List.mem_cons_of_mem _ (ih (k + 1) p h)

theorem innerLoop_eq_specInner (from_idx : Nat) (fc : ColourPos)
    (hbs : fc.pos + fc.block_size ≤ TUBE_SIZE) :
    ∀ e, innerLoop from_idx fc e = specInner from_idx fc e := by
  have hflush : wrapUSub TUBE_SIZE fc.block_size = fc.pos ↔
      fc.pos + fc.block_size = TUBE_SIZE := by
    rw [wrapUSub_of_le _ _ (by unfold TUBE_SIZE; omega) (by omega)]
    omega
  intro e
  induction e with
  | nil => rfl
  | cons p rest ih =>
    obtain ⟨i, t⟩ := p
    rw [show specInner from_idx fc ((i, t) :: rest) =
      (if from_idx = i then []
        else match t.get_top_colour with
          | none =>
            if fc.pos + fc.block_size = TUBE_SIZE then []
            else [⟨from_idx, i, fc.colour, fc.block_size⟩]
          | some tc =>
            if tc.colour = fc.colour then
              [⟨from_idx, i, fc.colour, min fc.block_size tc.pos⟩]
            else []) ++ specInner from_idx fc rest from List.flatMap_cons ..]
    by_cases hii : from_idx = i
    · simp only [innerLoop, if_pos hii, ih, List.nil_append]
    · simp only [innerLoop, if_neg hii]
      cases htop : t.get_top_colour with
      | none =>
        simp only
        by_cases hfl : fc.pos + fc.block_size = TUBE_SIZE
        · rw [if_pos (hflush.2 hfl), if_pos hfl, ih, List.nil_append]
        · rw [if_neg fun hc => hfl (hflush.1 hc), if_neg hfl, ih,
            List.cons_append, List.nil_append]
      | some tc =>
        simp only
        by_cases hcol : tc.colour = fc.colour
        · rw [if_pos hcol, if_pos hcol, ih, List.cons_append, List.nil_append]
        · rw [if_neg hcol, if_neg hcol, ih, List.nil_append]

theorem outerLoop_eq_spec (all : List (Nat × Tube)) :
    ∀ srcs, (∀ p ∈ srcs, ∀ fc, p.2.get_top_colour = some fc →
        fc.pos + fc.block_size ≤ TUBE_SIZE) →
      outerLoop all srcs =
        (srcs.takeWhile fun p => p.2.get_top_colour.isSome).flatMap
          (fun p =>
            match p.2.get_top_colour with
            | none => []
            | some fc => specInner p.1 fc all) := by
  intro srcs
  induction srcs with
  | nil => intro _; rfl
  | cons p rest ih =>
    intro h
    obtain ⟨i, t⟩ := p
    cases htop : t.get_top_colour with
    | none =>
      simp only [outerLoop, htop, List.takeWhile_cons, Option.isSome_none,
        Bool.false_eq_true, if_false, List.flatMap_nil]
    | some fc =>
      have hb : fc.pos + fc.block_size ≤ TUBE_SIZE :=
        h (i, t) (List.mem_cons_self ..) fc htop
      simp only [outerLoop, htop, List.takeWhile_cons, Option.isSome_some,
        if_true, List.flatMap_cons]
      rw [innerLoop_eq_specInner i fc hb all,
        ih fun p hp fc' htop' => h p (List.mem_cons_of_mem _ hp) fc' htop']

/-- Counterexample to claim C3 as stated: `get_possible_moves` `break`s
out of the whole enumeration at the first tube with no top segment, so on
`gC3` (tube 0 empty, tubes 1 and 2 with matching red tops) it returns no
moves at all, while the claimed per-pair enumeration yields two. -/
theorem c3_counterexample :
    Solver.get_possible_moves gC3 = [] ∧
      claimedMoves gC3 = [⟨1, 2, "red", 3⟩, ⟨2, 1, "red", 1⟩] ∧
      ([] : List Move) ≠ [⟨1, 2, "red", 3⟩, ⟨2, 1, "red", 1⟩] := by
  refine ⟨by decide, by decide, by decide⟩

/-- Claim C3 (amended): on a standard game, `get_possible_moves` equals
the spec's per-pair enumeration restricted to sources before the first
tube with no top segment (the enumeration halts there): for every such
source and every other tube, an empty destination receives the full top
block unless the block already sits flush against the bottom, and a
matching-colour destination receives `min(block size, headroom)`; other
pairs yield no move. -/
theorem c3_get_possible_moves (g : Game) (hstd : allStdLen g = true) :
    Solver.get_possible_moves g = specMoves g := by
  unfold Solver.get_possible_moves specMoves
  apply outerLoop_eq_spec
  intro p hp fc htop
  have hmem : p.2 ∈ g.tubes := enumF_mem g.tubes 0 p hp
  have hlen := allStdLen_spec g hstd p.2 hmem
  have hble := get_top_colour_block_le p.2 fc htop
  omega

/-- Witness for the amended C3 at a concrete game (the repository's own
solver test case). -/
theorem c3_get_possible_moves_witness :
    allStdLen gW3 = true ∧
      Solver.get_possible_moves gW3 = specMoves gW3 ∧
      Solver.get_possible_moves gW3 =
        [⟨0, 2, "red", 3⟩, ⟨2, 0, "red", 1⟩] :=
  ⟨by decide, c3_get_possible_moves gW3 (by decide), by decide⟩

/-- Witness for C8: the legal pour of two red cells between `tW8a` and
the empty `tW8b`. -/
theorem c8_pour_conservation_witness :
    ((tW8b.pour_to ⟨0, 1, "red", 2⟩).isSome = true ∧
      tubeColourCount "red" (tW8a.pour_from ⟨0, 1, "red", 2⟩) + 2 =
        tubeColourCount "red" tW8a ∧
      tubeFilledCount (tW8a.pour_from ⟨0, 1, "red", 2⟩) + 2 =
        tubeFilledCount tW8a ∧
      (tW8b.pour_to ⟨0, 1, "red", 2⟩).map (tubeColourCount "red") =
        some (tubeColourCount "red" tW8b + 2) ∧
      (tW8b.pour_to ⟨0, 1, "red", 2⟩).map tubeFilledCount =
        some (tubeFilledCount tW8b + 2)) :=
  c8_pour_conservation tW8a tW8b ⟨0, 1, "red", 2⟩ (by decide) (by decide)
    (by decide)

/-! ### Claim C9: character-level lemmas -/
theorem lowerC_none_fix (c : Char)
    (hf : upperLower.find? (fun p => p.1 = c) = none) : lowerC c = c := by
  simp [lowerC, hf]

theorem lowerC_some_val (c : Char) (p : Char × Char)
    (hf : upperLower.find? (fun q => q.1 = c) = some p) : lowerC c = p.2 := by
  simp [lowerC, hf]

theorem lowerC_idem (c : Char) : lowerC (lowerC c) = lowerC c := by
  cases hf : upperLower.find? fun p => p.1 = c with
  | none =>
    have h := lowerC_none_fix c hf
    rw [h, h]
  | some p =>
    have hmem : p ∈ upperLower := List.mem_of_find?_eq_some hf
    have hfix : ∀ q ∈ upperLower, lowerC q.2 = q.2 := by decide
    rw [lowerC_some_val c p hf]
    exact hfix p hmem

theorem isWS_lowerC (c : Char) : isWS (lowerC c) = isWS c := by
  cases hf : upperLower.find? fun p => p.1 = c with
  | none => rw [lowerC_none_fix c hf]
  | some p =>
    have hmem : p ∈ upperLower := List.mem_of_find?_eq_some hf
    have hc : p.1 = c := by simpa using List.find?_some hf
    have hws : ∀ q ∈ upperLower, isWS q.2 = false ∧ isWS q.1 = false := by decide
    rw [lowerC_some_val c p hf, (hws p hmem).1, ← hc, (hws p hmem).2]

theorem lowerC_comma (c : Char) (h : lowerC c = ',') : c = ',' := by
  cases hf : upperLower.find? fun p => p.1 = c with
  | none => rw [← lowerC_none_fix c hf]; exact h
  | some p =>
    have hmem : p ∈ upperLower := List.mem_of_find?_eq_some hf
    have hnc : ∀ q ∈ upperLower, q.2 ≠ ',' := by decide
    rw [lowerC_some_val c p hf] at h
    exact absurd h (hnc p hmem)

theorem dropWhile_idem {α : Type} (p : α → Bool) (l : List α) :
    (l.dropWhile p).dropWhile p = l.dropWhile p := by
  induction l with
  | nil => rfl
  | cons a l ih =>
    by_cases h : p a <;> simp [List.dropWhile_cons, h, ih]

theorem dropWhile_reverse_trimmed {α : Type} (p : α → Bool) (l : List α)
    (h : l.dropWhile p = l) :
    ((l.reverse.dropWhile p).reverse).dropWhile p =
      (l.reverse.dropWhile p).reverse := by
  have hsuffix : l.reverse.dropWhile p <:+ l.reverse := List.dropWhile_suffix p
  have hprefix : (l.reverse.dropWhile p).reverse <+: l :=
    List.reverse_suffix.1 (by simpa using hsuffix)
  cases hd : (l.reverse.dropWhile p).reverse with
  | nil => rfl
  | cons a t =>
    rw [hd] at hprefix
    obtain ⟨u, hu⟩ := hprefix
    rw [List.cons_append] at hu
    have hpa : p a = false := by
      by_contra hpa
      have hpa' : p a = true := by
        cases hb : p a
        · exact absurd hb hpa
        · rfl
      rw [← hu, List.dropWhile_cons, if_pos hpa'] at h
      have hlen := congrArg List.length h
      have hle : (List.dropWhile p (t ++ u)).length ≤ (t ++ u).length :=
        (List.dropWhile_sublist p).length_le
      simp only [List.length_cons] at hlen
      omega
    rw [List.dropWhile_cons, if_neg (by simp [hpa])]

theorem trimChars_idem (l : List Char) : trimChars (trimChars l) = trimChars l := by
  have h1 : (l.dropWhile isWS).dropWhile isWS = l.dropWhile isWS :=
    dropWhile_idem ..
  have h2 := dropWhile_reverse_trimmed isWS (l.dropWhile isWS) h1
  show trimChars (((l.dropWhile isWS).reverse.dropWhile isWS).reverse) = _
  unfold trimChars
  rw [h2, List.reverse_reverse, dropWhile_idem]

theorem trimChars_lowerChars (l : List Char) :
    trimChars (lowerChars l) = lowerChars (trimChars l) := by
  have hfun : (isWS ∘ lowerC) = isWS := funext isWS_lowerC
  unfold trimChars lowerChars
  rw [List.dropWhile_map, hfun, ← List.map_reverse, List.dropWhile_map, hfun,
    ← List.map_reverse]

theorem lowerChars_idem (l : List Char) :
    lowerChars (lowerChars l) = lowerChars l := by
  unfold lowerChars
  rw [List.map_map]
  congr 1
  funext c
  exact lowerC_idem c

theorem normToken_idem (l : List Char) : normToken (normToken l) = normToken l := by
  unfold normToken
  rw [trimChars_lowerChars, lowerChars_idem, trimChars_idem]

theorem normToken_cons_space (l : List Char) :
    normToken (' ' :: l) = normToken l := by
  unfold normToken trimChars
  rw [List.dropWhile_cons, if_pos (by decide)]

theorem mem_trimChars {c : Char} (l : List Char) (h : c ∈ trimChars l) :
    c ∈ l := by
  unfold trimChars at h
  have h1 := List.mem_reverse.1 h
  have h2 := List.Sublist.mem h1 (List.dropWhile_sublist isWS)
  have h3 := List.mem_reverse.1 h2
  exact List.Sublist.mem h3 (List.dropWhile_sublist isWS)

theorem comma_not_mem_normToken (l : List Char) (h : ',' ∉ l) :
    ',' ∉ normToken l := by
  intro hc
  unfold normToken lowerChars at hc
  obtain ⟨d, hd, hdc⟩ := List.mem_map.1 hc
  have hd' : d = ',' := lowerC_comma d hdc
  subst hd'
  exact h (mem_trimChars l hd)

theorem splitComma_ne_nil (l : List Char) : splitComma l ≠ [] := by
  cases l with
  | nil => simp [splitComma]
  | cons c rest =>
    unfold splitComma
    by_cases h : c = ','
    · simp [h]
    · rw [if_neg h]
      cases hs : splitComma rest <;> simp

theorem comma_not_mem_splitComma (l : List Char) :
    ∀ t ∈ splitComma l, ',' ∉ t := by
  induction l with
  | nil =>
    intro t ht
    simp only [splitComma, List.mem_singleton] at ht
    simp [ht]
  | cons c rest ih =>
    intro t ht
    unfold splitComma at ht
    by_cases h : c = ','
    · rw [if_pos h] at ht
      rcases List.mem_cons.1 ht with h1 | h1
      · simp [h1]
      · exact ih t h1
    · rw [if_neg h] at ht
      cases hs : splitComma rest with
      | nil => exact absurd hs (splitComma_ne_nil rest)
      | cons t0 ts =>
        rw [hs] at ht
        rcases List.mem_cons.1 ht with h1 | h1
        · subst h1
          intro hmem
          rcases List.mem_cons.1 hmem with h2 | h2
          · exact h h2.symm
          · exact ih t0 (hs ▸ List.mem_cons_self ..) h2
        · exact ih t (hs ▸ List.mem_cons_of_mem _ h1)

theorem splitComma_append (a b : List Char) (h : ',' ∉ a) :
    splitComma (a ++ ',' :: b) = a :: splitComma b := by
  induction a with
  | nil =>
    show splitComma (',' :: b) = [] :: splitComma b
    rw [splitComma, if_pos rfl]
  | cons c a' ih =>
    have hc : c ≠ ',' := fun hcc => h (hcc ▸ List.mem_cons_self ..)
    have ha' : ',' ∉ a' := fun hm => h (List.mem_cons_of_mem _ hm)
    show splitComma (c :: (a' ++ ',' :: b)) = _
    rw [splitComma, if_neg hc, ih ha']

theorem splitComma_no_comma (a : List Char) (h : ',' ∉ a) :
    splitComma a = [a] := by
  induction a with
  | nil => rfl
  | cons c a' ih =>
    have hc : c ≠ ',' := fun hcc => h (hcc ▸ List.mem_cons_self ..)
    have ha' : ',' ∉ a' := fun hm => h (List.mem_cons_of_mem _ hm)
    rw [splitComma, if_neg hc, ih ha']

theorem splitComma_joinCS :
    ∀ (ws : List String) (w : String), (',' ∉ w.data) →
      (∀ v ∈ ws, ',' ∉ v.data) →
      splitComma (joinCS (w :: ws)).data =
        w.data :: ws.map (fun v => ' ' :: v.data) := by
  intro ws
  induction ws with
  | nil =>
    intro w hw _
    exact splitComma_no_comma w.data hw
  | cons v vs ih =>
    intro w hw hws
    have hj : joinCS (w :: v :: vs) = w ++ ", " ++ joinCS (v :: vs) := rfl
    rw [hj, String.data_append, String.data_append,
      show (", " : String).data = [',', ' '] from rfl, List.append_assoc,
      show ([',', ' '] : List Char) ++ (joinCS (v :: vs)).data =
        ',' :: (' ' :: (joinCS (v :: vs)).data) from rfl,
      splitComma_append w.data _ hw]
    congr 1
    have hv : ',' ∉ v.data := hws v (List.mem_cons_self ..)
    have hvs : ∀ u ∈ vs, ',' ∉ u.data := fun u hu =>
      hws u (List.mem_cons_of_mem _ hu)
    have hrec := ih v hv hvs
    rw [show splitComma (' ' :: (joinCS (v :: vs)).data) =
        match splitComma (joinCS (v :: vs)).data with
        | [] => [[' ']]
        | t :: ts => (' ' :: t) :: ts from by rw [splitComma, if_neg (by decide)],
      hrec]
    rfl

theorem string_eta (c : String) : (⟨c.data⟩ : String) = c := by
  cases c
  rfl

theorem niceCell_word (c : Option String) (h : NiceCell c) :
    (',' ∉ (cellText c).data) ∧
      normToken (cellText c).data = (cellText c).data ∧
      cellOfToken ((cellText c).data) = c := by
  cases c with
  | none => exact ⟨by decide, by decide, by decide⟩
  | some col =>
    obtain ⟨hnorm, hcomma, hne1, hne2⟩ := h
    refine ⟨hcomma, hnorm, ?_⟩
    show cellOfToken col.data = some col
    unfold cellOfToken
    rw [string_eta col, if_neg (by simp [hne1, hne2])]

theorem from_string_nice (s : String) (n : Nat) :
    ∀ c ∈ (Tube.from_string s n).contents, NiceCell c := by
  intro c hc
  unfold Tube.from_string at hc
  simp only [List.mem_append] at hc
  cases hc with
  | inl h =>
    rw [List.eq_of_mem_replicate h]
    trivial
  | inr h =>
    obtain ⟨tk, htk, hcell⟩ := List.mem_map.1 h
    obtain ⟨x, hx, hnorm⟩ := List.mem_map.1 htk
    subst hnorm
    unfold cellOfToken at hcell
    by_cases hg : (⟨normToken x⟩ : String) = "empty" ∨ (⟨normToken x⟩ : String) = ""
    · rw [if_pos hg] at hcell
      rw [← hcell]
      trivial
    · rw [if_neg hg] at hcell
      rw [← hcell]
      push_neg at hg
      refine ⟨?_, ?_, hg.1, hg.2⟩
      · show normToken (String.mk (normToken x)).data = (String.mk (normToken x)).data
        show normToken (normToken x) = normToken x
        exact normToken_idem x
      · show ',' ∉ (String.mk (normToken x)).data
        show ',' ∉ normToken x
        exact comma_not_mem_normToken x (comma_not_mem_splitComma s.data x hx)

theorem from_string_length_ge (s : String) (n : Nat) :
    TUBE_SIZE ≤ (Tube.from_string s n).contents.length := by
  unfold Tube.from_string
  simp only [List.length_append, List.length_replicate, List.length_map]
  omega

theorem roundtrip_core (L : List (Option String))
    (hL : ∀ c ∈ L, NiceCell c) (hne : L ≠ []) :
    ((splitComma (joinCS (L.map cellText)).data).map normToken).map
        cellOfToken = L ∧
      ((splitComma (joinCS (L.map cellText)).data).map normToken).length =
        L.length := by
  cases L with
  | nil => exact absurd rfl hne
  | cons c0 L' =>
    have hword : ∀ c ∈ c0 :: L',
        (',' ∉ (cellText c).data) ∧
          normToken (cellText c).data = (cellText c).data ∧
          cellOfToken ((cellText c).data) = c :=
      fun c hc => niceCell_word c (hL c hc)
    have hsplit := splitComma_joinCS (L'.map cellText) (cellText c0)
      (hword c0 (List.mem_cons_self ..)).1
      (fun v hv => by
        obtain ⟨c, hc, hcv⟩ := List.mem_map.1 hv
        rw [← hcv]
        exact (hword c (List.mem_cons_of_mem _ hc)).1)
    rw [show (c0 :: L').map cellText = cellText c0 :: L'.map cellText from rfl,
      hsplit]
    simp only [List.map_cons, List.map_map, List.length_cons, List.length_map]
    refine ⟨?_, trivial⟩
    congr 1
    · rw [(hword c0 (List.mem_cons_self ..)).2.1]
      exact (hword c0 (List.mem_cons_self ..)).2.2
    · have hpt : ∀ c ∈ L',
          (cellOfToken ∘ (normToken ∘ (fun v => ' ' :: v.data) ∘ cellText)) c
            = id c := by
        intro c hc
        show cellOfToken (normToken (' ' :: (cellText c).data)) = c
        rw [normToken_cons_space, (hword c (List.mem_cons_of_mem _ hc)).2.1]
        exact (hword c (List.mem_cons_of_mem _ hc)).2.2
      rw [List.map_congr_left hpt, List.map_id]

/-- Counterexample to claim C9 as stated: re-parsing a tube's full
`Display` rendering (which includes the `"<n>: (...)"` wrapper) does not
round-trip: the re-rendered text nests a second wrapper, and the two
texts differ in their count of `'('` characters, which no case or
whitespace normalization can repair. -/
theorem c9_counterexample :
    Tube.display (Tube.from_string (Tube.display tC9) 0) ≠ Tube.display tC9 ∧
      parenCount (Tube.display (Tube.from_string (Tube.display tC9) 0)) = 2 ∧
      parenCount (Tube.display tC9) = 1 := by
  refine ⟨by decide, by decide, by decide⟩

/-- Claim C9 (amended): the textual round trip holds for the
comma-separated cell list of the rendering (the tube-description format,
without the `Display` wrapper `"<n>: (...)"`): for every tube built by
`from_string`, re-parsing its rendered cell list reproduces the contents
exactly, and re-rendering gives the identical text. -/
theorem c9_cell_list_round_trip (s : String) (n k : Nat) :
    (Tube.from_string (renderCells (Tube.from_string s n)) k).contents =
      (Tube.from_string s n).contents ∧
    renderCells (Tube.from_string (renderCells (Tube.from_string s n)) k) =
      renderCells (Tube.from_string s n) := by
  set t := Tube.from_string s n with ht
  have hnice : ∀ c ∈ t.contents, NiceCell c := from_string_nice s n
  have hlen : TUBE_SIZE ≤ t.contents.length := from_string_length_ge s n
  have hne : t.contents ≠ [] := by
    intro h
    rw [h] at hlen
    exact absurd hlen (by decide)
  obtain ⟨hcells, hlen2⟩ := roundtrip_core t.contents hnice hne
  have hdata : (renderCells t).data = (joinCS (t.contents.map cellText)).data := rfl
  have hcontents : (Tube.from_string (renderCells t) k).contents = t.contents := by
    show (List.replicate
        (TUBE_SIZE - ((splitComma (renderCells t).data).map normToken).length)
        none ++
      ((splitComma (renderCells t).data).map normToken).map cellOfToken) =
      t.contents
    rw [hdata, hcells, hlen2]
    rw [show TUBE_SIZE - t.contents.length = 0 from by omega]
    rfl
  refine ⟨hcontents, ?_⟩
  show joinCS ((Tube.from_string (renderCells t) k).contents.map cellText) =
    joinCS (t.contents.map cellText)
  rw [hcontents]
